import Mathlib

/-!
Verification of the TyDi-QA post-processing module (`tydi_canine/postproc.py`).

The development shallowly embeds the module's data model and operations:

* identifiers and byte offsets are modelled as `ℤ` (Python ints);
* the model's logits are Python floats used only with `+`, `-` and order
  comparisons; they are modelled as `ℤ`, on which those operations agree
  with float arithmetic for the integer-valued scores considered here;
* Python dicts that the code iterates in insertion order are modelled as
  association lists (`List (key × value)`), with `dictInsert` reproducing
  Python's "replace in place or append" assignment semantics;
* Python's stable `sorted` is modelled by `List.insertionSort`, which is
  likewise a stable sort;
* the `np.array(..., dtype="int32")` casts applied to example ids and
  feature ids are modelled by `toInt32` (wrap-around semantics of the
  numpy version contemporary with the repository);
* `logging.warning` effects of the span scorer are made observable as an
  explicit list of `PPWarn` events returned next to the result, and the
  failed-match counter of the merge-join is part of the join state;
* the fatal `assert` in the merge-join and the `ValueError` raised on an
  empty candidates dict are modelled with `Except PostprocError`.
-/

/-- One passage-answer candidate of an example (a byte range). -/
structure Candidate where
  plaintext_start_byte : ℤ
  plaintext_end_byte : ℤ
deriving DecidableEq, Repr

/-- A windowed, tokenized slice of an example (`dev_features` record).
`language_id` is stored as an array in the TF record, hence a list. -/
structure Feature where
  unique_ids : ℤ
  example_index : ℤ
  wp_start_offset : List ℤ
  wp_end_offset : List ℤ
  language_id : List ℤ
deriving DecidableEq, Repr

/-- The neural network's raw output for one feature (`raw_results` record). -/
structure RawResult where
  unique_id : ℤ
  start_logits : List ℤ
  end_logits : List ℤ
  answer_type_logits : List ℤ
deriving DecidableEq, Repr

/-- The minimal answer byte span of a predicted label. -/
structure MinimalAnswer where
  start_byte_offset : ℤ
  end_byte_offset : ℤ
deriving DecidableEq, Repr

/-- The `predicted_label` dictionary built by `compute_predictions`.
The `language` field holds the numeric `language_id`; the external
`data.Language` enum that renders it as a name is outside the sources. -/
structure PredictedLabel where
  example_id : ℤ
  language : ℤ
  passage_answer_index : ℕ
  passage_answer_score : ℤ
  minimal_answer : MinimalAnswer
  minimal_answer_score : ℤ
  yes_no_answer : String
deriving DecidableEq, Repr

/-- The `ScoreSummary` object (fully populated success value). -/
structure ScoreSummary where
  predicted_label : PredictedLabel
  minimal_span_score : ℤ
  cls_token_score : ℤ
  answer_type_logits : List ℤ
deriving DecidableEq, Repr

/-- The per-example aggregate built by the merge-join (`EvalExample`).
`results` and `features` model the two Python dicts keyed by unique id. -/
structure EvalExample where
  example_id : ℤ
  candidates : List Candidate
  results : List (ℤ × RawResult)
  features : List (ℤ × Feature)
deriving DecidableEq, Repr

/-- One candidate prediction tuple appended to `predictions` inside
`compute_predictions`: the Python tuple
`(score, summary, language_name, start_offset, end_offset)` flattened,
together with the loop variables `start_index`/`end_index` recorded for
specification purposes. -/
structure PredCand where
  score : ℤ
  minimal_span_score : ℤ
  cls_token_score : ℤ
  answer_type_logits : List ℤ
  language : ℤ
  start_offset : ℤ
  end_offset : ℤ
  start_index : ℕ
  end_index : ℕ
deriving DecidableEq, Repr

/-- Observable `logging.warning` events of the span scorer. -/
inductive PPWarn where
  | countMismatch
  | noFeature (uid : ℤ)
  | noPredictions
  | noPassage
deriving DecidableEq, Repr

/-- Fatal errors of `compute_pred_dict`: the `ValueError` raised for an
empty candidates dict, and the `assert` on a joined feature's owning
example id (whose very message formatting also raises, so the mismatch is
fatal either way); the latter carries the two compared ids. -/
inductive PostprocError where
  | valueError (msg : String)
  | assertionError (expected found : ℤ)
deriving DecidableEq, Repr

instance {ε α : Type} [DecidableEq ε] [DecidableEq α] : DecidableEq (Except ε α) :=
  fun a b =>
    match a, b with
    | Except.error e, Except.error e' => decidable_of_iff (e = e') (by simp)
    | Except.ok x, Except.ok y => decidable_of_iff (x = y) (by simp)
    | Except.error _, Except.ok _ => isFalse (by simp)
    | Except.ok _, Except.error _ => isFalse (by simp)

/-- Python dict assignment `d[k] = v` on an association list: replace the
existing binding in place, else append. -/
def dictInsert (k : ℤ) (v : α) (d : List (ℤ × α)) : List (ℤ × α) :=
  if d.any (fun p => p.1 == k) then
    d.map (fun p => if p.1 == k then (k, v) else p)
  else
    d ++ [(k, v)]

/-- Comparison used to model `sorted(enumerate(logits[1:], 1), key=lambda x: x[1], reverse=True)`:
stable descending order on the score component. -/
def descBySnd (a b : ℕ × ℤ) : Prop := b.2 ≤ a.2

instance : DecidableRel descBySnd := fun a b => inferInstanceAs (Decidable (b.2 ≤ a.2))

instance : IsTotal (ℕ × ℤ) descBySnd := ⟨fun a b => le_total b.2 a.2⟩

instance : IsTrans (ℕ × ℤ) descBySnd := ⟨fun _ _ _ h h' => le_trans h' h⟩

/-- `get_best_indexes(logits, n_best_size)`: indices `1..` of `logits[1:]`
sorted stably by descending logit, truncated to `n_best_size`. -/
def get_best_indexes (logits : List ℤ) (n_best_size : ℕ) : List ℕ :=
  ((((logits.drop 1).enumFrom 1).insertionSort descBySnd).take n_best_size).map (·.1)

/-- Containment test of the passage-resolution loop:
`c["plaintext_start_byte"] <= start and c["plaintext_end_byte"] >= end`. -/
def containsSpan (c : Candidate) (startOffset endOffset : ℤ) : Prop :=
  c.plaintext_start_byte ≤ startOffset ∧ endOffset ≤ c.plaintext_end_byte

instance (c : Candidate) (s e : ℤ) : Decidable (containsSpan c s e) :=
  inferInstanceAs (Decidable (_ ∧ _))

/-- Index of the first candidate containing the winning span, if any
(the `for c_ind, c in enumerate(...)` loop with `break`). -/
def firstContainingIndex (startOffset endOffset : ℤ) : List Candidate → Option ℕ
  | [] => none
  | c :: rest =>
    if containsSpan c startOffset endOffset then some 0
    else (firstContainingIndex startOffset endOffset rest).map (· + 1)

/-- Passage resolution: first containing candidate's ordinal, or the
fallback index 0 together with the `for`-`else` warning. -/
def resolvePassageIndex (cands : List Candidate) (startOffset endOffset : ℤ) :
    ℕ × List PPWarn :=
  match firstContainingIndex startOffset endOffset cands with
  | some i => (i, [])
  | none => (0, [PPWarn.noPassage])

/-- The inner double loop over `start_indexes × end_indexes` for one
feature/result pair: discard a pair if the end precedes the start, either
offset entry is the `-1` sentinel, or the token length exceeds
`max_answer_length`; otherwise record the candidate prediction tuple. -/
def pairPredictions (f : Feature) (r : RawResult)
    (n_best_size max_answer_length : ℕ) : List PredCand :=
  let start_indexes := get_best_indexes r.start_logits n_best_size
  let end_indexes := get_best_indexes r.end_logits n_best_size
  let cls_token_score := r.start_logits.getD 0 0 + r.end_logits.getD 0 0
  start_indexes.flatMap (fun s =>
    end_indexes.filterMap (fun e =>
      if e < s then none
      else if f.wp_start_offset.getD s (-1) = -1 then none
      else if f.wp_end_offset.getD e (-1) = -1 then none
      else if max_answer_length < e - s + 1 then none
      else
        some { score := r.start_logits.getD s 0 + r.end_logits.getD e 0 - cls_token_score
               minimal_span_score := r.start_logits.getD s 0 + r.end_logits.getD e 0
               cls_token_score := cls_token_score
               answer_type_logits := r.answer_type_logits
               language := f.language_id.getD 0 0
               start_offset := f.wp_start_offset.getD s (-1)
               end_offset := f.wp_end_offset.getD e (-1) + 1
               start_index := s
               end_index := e }))

/-- The `for unique_id, result in eval_example.results.items()` loop:
accumulates the prediction tuples of every pair, aborting with the unique
id on the `unique_id not in eval_example.features` early return. -/
def gatherAll (features : List (ℤ × Feature)) (n_best_size max_answer_length : ℕ) :
    List (ℤ × RawResult) → Except ℤ (List PredCand)
  | [] => Except.ok []
  | (uid, r) :: rest =>
    match features.lookup uid with
    | none => Except.error uid
    | some f =>
      (gatherAll features n_best_size max_answer_length rest).map
        (fun ps => pairPredictions f r n_best_size max_answer_length ++ ps)

/-- `max(predictions, key=lambda x: x[0])`: first maximal element by score
(Python `max` keeps the earliest of equals), `none` on an empty list. -/
def pickBest : List PredCand → Option PredCand
  | [] => none
  | p :: rest => some (rest.foldl (fun best q => if best.score < q.score then q else best) p)

/-- The winning prediction tuple of an example, or the missing unique id. -/
def winningPrediction (ee : EvalExample) (candidate_beam max_answer_length : ℕ) :
    Except ℤ (Option PredCand) :=
  (gatherAll ee.features candidate_beam max_answer_length ee.results).map pickBest

/-- `compute_predictions` with its warning effects made explicit: returns
the optional `ScoreSummary` and the list of warnings logged on the way. -/
def computePredictionsW (ee : EvalExample) (candidate_beam max_answer_length : ℕ) :
    Option ScoreSummary × List PPWarn :=
  if ee.results.isEmpty then (none, [])
  else if ee.features.length ≠ ee.results.length then (none, [PPWarn.countMismatch])
  else
    match winningPrediction ee candidate_beam max_answer_length with
    | Except.error uid => (none, [PPWarn.noFeature uid])
    | Except.ok none => (none, [PPWarn.noPredictions])
    | Except.ok (some best) =>
      (some { predicted_label :=
                { example_id := ee.example_id
                  language := best.language
                  passage_answer_index :=
                    (resolvePassageIndex ee.candidates best.start_offset best.end_offset).1
                  passage_answer_score := best.score
                  minimal_answer :=
                    { start_byte_offset := best.start_offset
                      end_byte_offset := best.end_offset }
                  minimal_answer_score := best.score
                  yes_no_answer := "NONE" }
              minimal_span_score := best.minimal_span_score
              cls_token_score := best.cls_token_score
              answer_type_logits := best.answer_type_logits },
       (resolvePassageIndex ee.candidates best.start_offset best.end_offset).2)

/-- `compute_predictions(eval_example, candidate_beam, max_answer_length)`. -/
def compute_predictions (ee : EvalExample) (candidate_beam max_answer_length : ℕ) :
    Option ScoreSummary :=
  (computePredictionsW ee candidate_beam max_answer_length).1

/-- `construct_prediction_object`: the task run per example by the worker
pool; `None` results contribute nothing. -/
def construct_prediction_object (ee : EvalExample)
    (candidate_beam max_answer_length : ℕ) : Option (ℤ × PredictedLabel) :=
  (compute_predictions ee candidate_beam max_answer_length).map
    (fun s => (ee.example_id, s.predicted_label))

/-- Tagged element of the merged stream. The Python code distinguishes the
three payload shapes at runtime (`isinstance(datum, tuple)` for examples,
`"wp_start_offset" in datum` for features, anything else is a raw result);
the tags make that dispatch a pattern match. An example datum carries the
original dict key `raw_id` (the Python pair `(k, candidates)` from
`candidates_dict.items()`), which may differ from the int32 sort key. -/
inductive Datum where
  | exampleEntry (raw_id : ℤ) (cands : List Candidate)
  | featureEntry (f : Feature)
  | resultEntry (r : RawResult)
deriving DecidableEq, Repr

/-- Wrap-around conversion of a Python int to a numpy `int32`, as applied
by `np.array([...], dtype="int32")` to example ids and feature ids. -/
def toInt32 (n : ℤ) : ℤ := (n + 2 ^ 31) % 2 ^ 32 - 2 ^ 31

/-- Sort key order of the merged stream (`key=lambda pair: pair[0]`). -/
def keyLE (a b : ℤ × Datum) : Prop := a.1 ≤ b.1

instance : DecidableRel keyLE := fun a b => inferInstanceAs (Decidable (a.1 ≤ b.1))

instance : IsTotal (ℤ × Datum) keyLE := ⟨fun a b => le_total a.1 b.1⟩

instance : IsTrans (ℤ × Datum) keyLE := ⟨fun _ _ _ h h' => le_trans h h'⟩

/-- Construction of `merged`: tag the three inputs with their sort keys
(`int32`-cast ids for examples and features, `unique_id + 1` for results),
concatenate in the source's order `examples + raw_results + features`, and
stably sort by key. -/
def mergedStream (candidates_dict : List (ℤ × List Candidate))
    (dev_features : List Feature) (raw_results : List RawResult) :
    List (ℤ × Datum) :=
  (candidates_dict.map (fun p : ℤ × List Candidate =>
      (toInt32 p.1, Datum.exampleEntry p.1 p.2)) ++
   raw_results.map (fun r : RawResult => (r.unique_id + 1, Datum.resultEntry r)) ++
   dev_features.map (fun f : Feature =>
      (toInt32 (f.unique_ids + 1), Datum.featureEntry f))).insertionSort keyLE

/-- Mutable state of the merge loop in `compute_pred_dict`. -/
structure JoinState where
  eval_examples : List EvalExample
  num_failed_matches : ℕ
  ex_count : ℕ
  feature_count : ℕ
  result_count : ℕ
deriving DecidableEq, Repr

/-- Example ids of the aggregates built so far, in construction order. -/
def JoinState.ids (st : JoinState) : List ℤ := st.eval_examples.map (·.example_id)

/-- Attach a feature under its derived id to an aggregate
(`eval_examples[-1].features[feature_unique_id] = datum`). -/
def insertFeature (k : ℤ) (f : Feature) (ee : EvalExample) : EvalExample :=
  { ee with features := dictInsert k f ee.features }

/-- Attach a raw result under its derived id to an aggregate
(`eval_examples[-1].results[feature_unique_id] = datum`). -/
def insertResult (k : ℤ) (r : RawResult) (ee : EvalExample) : EvalExample :=
  { ee with results := dictInsert k r ee.results }

/-- Replace the last element of a list by its image under `g`
(the Python code mutates `eval_examples[-1]` in place). -/
def updateLast (g : EvalExample → EvalExample) : List EvalExample → List EvalExample
  | [] => []
  | [x] => [g x]
  | x :: y :: xs => x :: updateLast g (y :: xs)

/-- One iteration of the merge loop: append a fresh aggregate for an
example datum; attach a feature to the most recent aggregate after the
fatal owning-example-id check, or count a failed match when no aggregate
exists yet; attach a result to the most recent aggregate with no
ownership check, under the same failed-match policy. -/
def joinStep (st : JoinState) (kd : ℤ × Datum) : Except PostprocError JoinState :=
  match kd.2 with
  | Datum.exampleEntry raw_id cands =>
    Except.ok { st with
      ex_count := st.ex_count + 1
      eval_examples := st.eval_examples ++
        [{ example_id := raw_id, candidates := cands, results := [], features := [] }] }
  | Datum.featureEntry f =>
    match st.eval_examples.getLast? with
    | none =>
      Except.ok { st with
        feature_count := st.feature_count + 1
        num_failed_matches := st.num_failed_matches + 1 }
    | some last =>
      if last.example_id = f.example_index then
        Except.ok { st with
          feature_count := st.feature_count + 1
          eval_examples := updateLast (insertFeature kd.1 f) st.eval_examples }
      else
        Except.error (PostprocError.assertionError last.example_id f.example_index)
  | Datum.resultEntry r =>
    match st.eval_examples.getLast? with
    | none =>
      Except.ok { st with
        result_count := st.result_count + 1
        num_failed_matches := st.num_failed_matches + 1 }
    | some _ =>
      Except.ok { st with
        result_count := st.result_count + 1
        eval_examples := updateLast (insertResult kd.1 r) st.eval_examples }

/-- The merge loop over the sorted stream. -/
def joinAll : List (ℤ × Datum) → JoinState → Except PostprocError JoinState
  | [], st => Except.ok st
  | kd :: rest, st =>
    match joinStep st kd with
    | Except.error e => Except.error e
    | Except.ok st' => joinAll rest st'

/-- Initial state of the merge loop. -/
def initJoinState : JoinState :=
  { eval_examples := [], num_failed_matches := 0, ex_count := 0
    feature_count := 0, result_count := 0 }

/-- The whole merge-join of `compute_pred_dict`. -/
def runJoin (candidates_dict : List (ℤ × List Candidate))
    (dev_features : List Feature) (raw_results : List RawResult) :
    Except PostprocError JoinState :=
  joinAll (mergedStream candidates_dict dev_features raw_results) initJoinState

/-- Write one collected `(example_id, predicted_label)` pair into the
output mapping (`tydi_pred_dict[result[0]] = result[1]`). -/
def dictSet (m : ℤ → Option PredictedLabel) (p : ℤ × PredictedLabel) :
    ℤ → Option PredictedLabel :=
  fun k => if k = p.1 then some p.2 else m k

/-- Assemble the output mapping from collected pairs in arrival order. -/
def buildPredDict (entries : List (ℤ × PredictedLabel)) : ℤ → Option PredictedLabel :=
  entries.foldl dictSet (fun _ => none)

/-- Per-example results in one particular arrival order: the pool's
`imap_unordered` yields `construct_prediction_object` values of the
aggregates in an arbitrary permutation of `eval_examples`; `None`s are
dropped. -/
def collectPredictions (ees : List EvalExample)
    (candidate_beam max_answer_length : ℕ) : List (ℤ × PredictedLabel) :=
  ees.filterMap (fun ee => construct_prediction_object ee candidate_beam max_answer_length)

/-- The Parallel Reduction Driver: score every aggregate (in the given
arrival order) and key the output mapping by example id. -/
def runDriver (ees : List EvalExample) (candidate_beam max_answer_length : ℕ) :
    ℤ → Option PredictedLabel :=
  buildPredDict (collectPredictions ees candidate_beam max_answer_length)

/-- `compute_pred_dict`: raise `ValueError` when no example candidates
exist (checked before any join or scoring work), otherwise merge-join the
three streams and reduce the aggregates to the prediction mapping. -/
def compute_pred_dict (candidates_dict : List (ℤ × List Candidate))
    (dev_features : List Feature) (raw_results : List RawResult)
    (candidate_beam max_answer_length : ℕ) :
    Except PostprocError (ℤ → Option PredictedLabel) :=
  if candidates_dict.isEmpty then
    Except.error (PostprocError.valueError "No examples candidates found.")
  else
    match runJoin candidates_dict dev_features raw_results with
    | Except.error e => Except.error e
    | Except.ok st =>
      Except.ok (runDriver st.eval_examples candidate_beam max_answer_length)

/-- Ownership of a derived key by an example id, per the identifier
invariant: `o` is an example id, the key sorts strictly after `o` and
strictly before every later example id. -/
def OwnsKey (ids : List ℤ) (o k : ℤ) : Prop :=
  o ∈ ids ∧ o < k ∧ ∀ e ∈ ids, e ≤ o ∨ k < e

instance (ids : List ℤ) (o k : ℤ) : Decidable (OwnsKey ids o k) := by
  unfold OwnsKey; infer_instance

/-- Monotonicity of a feature's offset arrays: a non-sentinel start offset
at position `i` never exceeds a non-sentinel end offset at a position
`j ≥ i`. This holds for real features (offsets are byte positions of the
tokens in passage order) but is not forced by the record type. -/
def MonotoneOffsets (f : Feature) : Prop :=
  ∀ i ∈ List.range f.wp_start_offset.length,
    ∀ j ∈ List.range f.wp_end_offset.length,
      i ≤ j → f.wp_start_offset.getD i (-1) ≠ -1 → f.wp_end_offset.getD j (-1) ≠ -1 →
        f.wp_start_offset.getD i (-1) ≤ f.wp_end_offset.getD j (-1)

instance (f : Feature) : Decidable (MonotoneOffsets f) := by
  unfold MonotoneOffsets; infer_instance

/-- Keys of the example records of a merged stream, in stream order. -/
def exKeysOf (l : List (ℤ × Datum)) : List ℤ :=
  l.filterMap (fun kd => match kd.2 with
    | Datum.exampleEntry _ _ => some kd.1
    | _ => none)

/-- Keys of the feature records of a merged stream, in stream order. -/
def featKeysOf (l : List (ℤ × Datum)) : List ℤ :=
  l.filterMap (fun kd => match kd.2 with
    | Datum.featureEntry _ => some kd.1
    | _ => none)

/-- Keys of the result records of a merged stream, in stream order. -/
def resKeysOf (l : List (ℤ × Datum)) : List ℤ :=
  l.filterMap (fun kd => match kd.2 with
    | Datum.resultEntry _ => some kd.1
    | _ => none)

/-- Feature keys already attached across a join state's aggregates. -/
def aggFeatKeys (st : JoinState) : List ℤ :=
  st.eval_examples.flatMap (fun ee => ee.features.map (·.1))

/-- Result keys already attached across a join state's aggregates. -/
def aggResKeys (st : JoinState) : List ℤ :=
  st.eval_examples.flatMap (fun ee => ee.results.map (·.1))

/-- Concrete feature of the spec's end-to-end scenario. -/
def featA : Feature :=
  { unique_ids := 1, example_index := 7, wp_start_offset := [-1, 0, 5, -1]
    wp_end_offset := [-1, 4, 9, -1], language_id := [3] }

/-- Concrete raw result of the spec's end-to-end scenario. -/
def resA : RawResult :=
  { unique_id := 1, start_logits := [5, 1, 9, 2], end_logits := [5, 0, 1, 8]
    answer_type_logits := [0] }

/-- Concrete aggregate of the spec's end-to-end scenario: one example with
one feature/result pair and candidate byte range `(0, 10)`. -/
def evalA : EvalExample :=
  { example_id := 7, candidates := [{ plaintext_start_byte := 0, plaintext_end_byte := 10 }]
    results := [(2, resA)], features := [(2, featA)] }

/-- Feature with non-monotone offset arrays: position 1 starts at byte 9
but ends at byte 0. -/
def featB : Feature :=
  { unique_ids := 1, example_index := 3, wp_start_offset := [-1, 9]
    wp_end_offset := [-1, 0], language_id := [0] }

/-- Raw result paired with `featB`. -/
def resB : RawResult :=
  { unique_id := 1, start_logits := [0, 1], end_logits := [0, 1]
    answer_type_logits := [0] }

/-- Aggregate whose winning span has its end byte before its start byte. -/
def evalB : EvalExample :=
  { example_id := 3, candidates := [], results := [(2, resB)], features := [(2, featB)] }

/-- Feature used in the wrong-owner join scenario: its derived id `6`
places it under example `5` while it records owning example `1`. -/
def featC : Feature :=
  { unique_ids := 5, example_index := 1, wp_start_offset := [-1]
    wp_end_offset := [-1], language_id := [0] }

/-- Result sharing `featC`'s unique id, hence the same derived id `6`. -/
def resC : RawResult :=
  { unique_id := 5, start_logits := [0], end_logits := [0], answer_type_logits := [0] }

/-- Join state after materializing examples `1` and `5`. -/
def stC : JoinState :=
  { eval_examples :=
      [{ example_id := 1, candidates := [], results := [], features := [] },
       { example_id := 5, candidates := [], results := [], features := [] }]
    num_failed_matches := 0, ex_count := 2, feature_count := 0, result_count := 0 }

/-- Feature whose raw derived id `2 ^ 31 + 1` satisfies the raw identifier
invariant for owning example `2 ^ 31` but overflows int32. -/
def featW : Feature :=
  { unique_ids := 2 ^ 31, example_index := 2 ^ 31, wp_start_offset := []
    wp_end_offset := [], language_id := [] }

/-- Small concrete join input: feature of example `1` with derived id `3`. -/
def featJ : Feature :=
  { unique_ids := 2, example_index := 1, wp_start_offset := [-1]
    wp_end_offset := [-1], language_id := [0] }

/-- Small concrete join input: result with derived id `3`. -/
def resJ : RawResult :=
  { unique_id := 2, start_logits := [0], end_logits := [0], answer_type_logits := [0] }

/-- Every feature attached to an aggregate records that aggregate's
example id as its owning example. -/
def FeatOwnersOK (st : JoinState) : Prop :=
  ∀ ee ∈ st.eval_examples, ∀ p ∈ ee.features, (p : ℤ × Feature).2.example_index = ee.example_id

instance (st : JoinState) : Decidable (FeatOwnersOK st) := by
  unfold FeatOwnersOK; infer_instance

/-- Expected scorer output for `evalA`. -/
def evalASummary : ScoreSummary :=
  { predicted_label :=
      { example_id := 7, language := 3, passage_answer_index := 0
        passage_answer_score := 0
        minimal_answer := { start_byte_offset := 5, end_byte_offset := 10 }
        minimal_answer_score := 0, yes_no_answer := "NONE" }
    minimal_span_score := 10, cls_token_score := 10, answer_type_logits := [0] }

/-- Scorer output for `evalB`: its minimal answer ends before it starts. -/
def evalBSummary : ScoreSummary :=
  { predicted_label :=
      { example_id := 3, language := 0, passage_answer_index := 0
        passage_answer_score := 2
        minimal_answer := { start_byte_offset := 9, end_byte_offset := 1 }
        minimal_answer_score := 2, yes_no_answer := "NONE" }
    minimal_span_score := 2, cls_token_score := 0, answer_type_logits := [0] }

/-! ### Helper lemmas -/

theorem updateLast_nil (g : EvalExample → EvalExample) : updateLast g [] = [] := rfl

theorem updateLast_append_singleton (g : EvalExample → EvalExample) :
    ∀ (l : List EvalExample) (x : EvalExample), updateLast g (l ++ [x]) = l ++ [g x] := by
  intro l x
  induction l with
  | nil => rfl
  | cons a l ih =>
    cases l with
    | nil => rfl
    | cons b l => simpa [updateLast] using ih

theorem mem_dictInsert {α : Type} {k : ℤ} {v : α} {d : List (ℤ × α)} {p : ℤ × α}
    (hp : p ∈ dictInsert k v d) : p = (k, v) ∨ p ∈ d := by
  unfold dictInsert at hp
  split at hp
  · rcases List.mem_map.1 hp with ⟨q, hq, hqe⟩
    by_cases h : q.1 == k
    · simp only [h, if_true] at hqe
      left; exact hqe.symm
    · simp only [h, Bool.false_eq_true, if_false] at hqe
      right; exact hqe ▸ hq
  · rcases List.mem_append.1 hp with h | h
    · right; exact h
    · left; simpa using h

theorem dictInsert_of_not_mem_keys {α : Type} {k : ℤ} {v : α} {d : List (ℤ × α)}
    (h : k ∉ d.map (·.1)) : dictInsert k v d = d ++ [(k, v)] := by
  unfold dictInsert
  have hany : d.any (fun p => p.1 == k) = false := by
    rw [List.any_eq_false]
    intro p hp
    simp only [beq_iff_eq]
    intro hk
    exact h (List.mem_map.2 ⟨p, hp, hk⟩)
  simp [hany]

/-! ### C10: empty candidates dict raises ValueError -/

/-- C10: for every call of `compute_pred_dict` whose candidates mapping is
empty, the function raises `ValueError("No examples candidates found.")`
before any join or scoring work, instead of returning an empty mapping. -/
theorem c10_empty_candidates_raises (dev_features : List Feature)
    (raw_results : List RawResult) (candidate_beam max_answer_length : ℕ) :
    compute_pred_dict [] dev_features raw_results candidate_beam max_answer_length =
      Except.error (PostprocError.valueError "No examples candidates found.") := rfl

/-! ### C5: orphan features/results are counted and skipped, never fatal -/

/-- C5: a feature or result record encountered while no `EvalExample` has
been materialized is skipped, counted as a failed match, and the merge
loop continues over the remaining records; it never aborts the run. -/
theorem c5_orphan_records_skipped (st : JoinState) (k : ℤ) (f : Feature)
    (r : RawResult) (rest : List (ℤ × Datum)) (h : st.eval_examples = []) :
    joinStep st (k, Datum.featureEntry f) =
      Except.ok { st with feature_count := st.feature_count + 1
                          num_failed_matches := st.num_failed_matches + 1 } ∧
    joinStep st (k, Datum.resultEntry r) =
      Except.ok { st with result_count := st.result_count + 1
                          num_failed_matches := st.num_failed_matches + 1 } ∧
    joinAll ((k, Datum.featureEntry f) :: rest) st =
      joinAll rest { st with feature_count := st.feature_count + 1
                             num_failed_matches := st.num_failed_matches + 1 } ∧
    joinAll ((k, Datum.resultEntry r) :: rest) st =
      joinAll rest { st with result_count := st.result_count + 1
                             num_failed_matches := st.num_failed_matches + 1 } := by
  have hl : st.eval_examples.getLast? = none := by
    rw [List.getLast?_eq_none_iff]; exact h
  refine ⟨?_, ?_, ?_, ?_⟩ <;> simp [joinStep, joinAll, hl]

/-- Witness for C5 at the initial join state and concrete records. -/
theorem c5_orphan_records_skipped_witness :
    initJoinState.eval_examples = [] ∧
    joinStep initJoinState (3, Datum.featureEntry featJ) =
      Except.ok { initJoinState with feature_count := initJoinState.feature_count + 1
                                     num_failed_matches := initJoinState.num_failed_matches + 1 } :=
  ⟨rfl, (c5_orphan_records_skipped initJoinState 3 featJ resJ [] rfl).1⟩

/-! ### C6: scorer early exits (null result; warning only for count mismatch) -/

/-- C6 counterexample: on an example with an empty results mapping the
scorer returns null but records no warning, contradicting the claim that
a warning is recorded in both early-exit cases. -/
theorem c6_empty_results_no_warning_counterexample :
    computePredictionsW { evalA with results := [] } 2 10 = (none, []) := by decide

/-- C6 as amended: the scorer returns null when the example has no
results (silently, with no warning recorded), and returns null with a
`countMismatch` warning when the feature and result counts differ. -/
theorem c6_early_exits (ee : EvalExample) (candidate_beam max_answer_length : ℕ) :
    (ee.results = [] → computePredictionsW ee candidate_beam max_answer_length = (none, [])) ∧
    (ee.results ≠ [] → ee.features.length ≠ ee.results.length →
      computePredictionsW ee candidate_beam max_answer_length =
        (none, [PPWarn.countMismatch])) := by
  constructor
  · intro h
    simp [computePredictionsW, h]
  · intro h h'
    simp [computePredictionsW, h, h']

/-- Witness for C6 at concrete inputs exercising both early exits. -/
theorem c6_early_exits_witness :
    computePredictionsW { evalA with results := [] } 2 10 = (none, []) ∧
    computePredictionsW { evalA with features := [] } 2 10 = (none, [PPWarn.countMismatch]) :=
  ⟨(c6_early_exits { evalA with results := [] } 2 10).1 rfl,
   (c6_early_exits { evalA with features := [] } 2 10).2 (by decide) (by decide)⟩

/-! ### C2: end-to-end scenario -/

/-- C2 counterexample: in the spec's end-to-end scenario the winning span
is not the token pair `(start=2, end=3)` — that pair is discarded because
`wp_end_offset[3]` is the `-1` sentinel. -/
theorem c2_winning_pair_counterexample :
    ¬ (winningPrediction evalA 2 10).map (Option.map (fun p => (p.start_index, p.end_index))) =
        Except.ok (some ((2 : ℕ), (3 : ℕ))) := by decide

/-- C2 as amended: in the end-to-end scenario the winning span is the
token pair `(start=2, end=2)` (pair `(2,3)` is filtered by the end
sentinel), which yields byte span `(5, 10)` and `passage_answer_index = 0`. -/
theorem c2_end_to_end :
    (winningPrediction evalA 2 10).map (Option.map (fun p => (p.start_index, p.end_index))) =
      Except.ok (some ((2 : ℕ), (2 : ℕ))) ∧
    compute_predictions evalA 2 10 = some evalASummary ∧
    evalASummary.predicted_label.minimal_answer =
      { start_byte_offset := 5, end_byte_offset := 10 } ∧
    evalASummary.predicted_label.passage_answer_index = 0 := by decide

/-! ### C4: fatal ownership check exists for features only -/

theorem updateLast_eq (g : EvalExample → EvalExample) (l : List EvalExample)
    (h : l ≠ []) : updateLast g l = l.dropLast ++ [g (l.getLast h)] := by
  conv_lhs => rw [← List.dropLast_append_getLast h]
  rw [updateLast_append_singleton]

theorem joinStep_preserves_featOwners {st st' : JoinState} {kd : ℤ × Datum}
    (hOK : FeatOwnersOK st) (h : joinStep st kd = Except.ok st') : FeatOwnersOK st' := by
  obtain ⟨k, d⟩ := kd
  cases d with
  | exampleEntry rid cands =>
    simp only [joinStep, Except.ok.injEq] at h
    intro ee hee p hp
    rw [← h] at hee
    simp only [List.mem_append, List.mem_singleton] at hee
    rcases hee with hee | hee
    · exact hOK ee hee p hp
    · subst hee; simp at hp
  | featureEntry f =>
    simp only [joinStep] at h
    cases hl : st.eval_examples.getLast? with
    | none =>
      simp only [hl, Except.ok.injEq] at h
      intro ee hee
      rw [← h] at hee
      exact hOK ee hee
    | some last =>
      simp only [hl] at h
      have hne : st.eval_examples ≠ [] := by
        intro he
        rw [he] at hl
        simp at hl
      have hlast : st.eval_examples.getLast hne = last := by
        have := List.getLast?_eq_getLast st.eval_examples hne
        rw [hl] at this
        exact (Option.some.injEq _ _ ▸ this).symm
      split at h
      · next heq =>
        simp only [Except.ok.injEq] at h
        intro ee hee p hp
        rw [← h] at hee
        simp only [updateLast_eq _ _ hne, hlast, List.mem_append,
          List.mem_singleton] at hee
        rcases hee with hee | hee
        · exact hOK ee ((List.dropLast_sublist _).subset hee) p hp
        · subst hee
          simp only [insertFeature] at hp
          rcases mem_dictInsert hp with hp | hp
          · subst hp; exact heq.symm
          · exact hOK last (by rw [← hlast]; exact List.getLast_mem hne) p hp
      · exact absurd h (by simp)
  | resultEntry r =>
    simp only [joinStep] at h
    cases hl : st.eval_examples.getLast? with
    | none =>
      simp only [hl, Except.ok.injEq] at h
      intro ee hee
      rw [← h] at hee
      exact hOK ee hee
    | some last =>
      simp only [hl, Except.ok.injEq] at h
      have hne : st.eval_examples ≠ [] := by
        intro he
        rw [he] at hl
        simp at hl
      have hlast : st.eval_examples.getLast hne = last := by
        have := List.getLast?_eq_getLast st.eval_examples hne
        rw [hl] at this
        exact (Option.some.injEq _ _ ▸ this).symm
      intro ee hee p hp
      rw [← h] at hee
      simp only [updateLast_eq _ _ hne, hlast, List.mem_append,
        List.mem_singleton] at hee
      rcases hee with hee | hee
      · exact hOK ee ((List.dropLast_sublist _).subset hee) p hp
      · subst hee
        exact hOK last (by rw [← hlast]; exact List.getLast_mem hne) p hp

theorem joinAll_preserves_featOwners :
    ∀ (l : List (ℤ × Datum)) (st st' : JoinState),
      FeatOwnersOK st → joinAll l st = Except.ok st' → FeatOwnersOK st' := by
  intro l
  induction l with
  | nil =>
    intro st st' hOK h
    simp only [joinAll, Except.ok.injEq] at h
    exact h ▸ hOK
  | cons kd rest ih =>
    intro st st' hOK h
    simp only [joinAll] at h
    cases hs : joinStep st kd with
    | error e => rw [hs] at h; exact absurd h (by simp)
    | ok st₁ => rw [hs] at h; exact ih st₁ st' (joinStep_preserves_featOwners hOK hs) h

/-- C4 counterexample: the result sharing the mis-owned feature's derived
id `6` is silently inserted into example `5`'s aggregate and the loop
continues, while the feature itself is fatal — so the fatal policy does
not apply to results. -/
theorem c4_result_no_check_counterexample :
    joinStep stC (6, Datum.resultEntry resC) =
      Except.ok { stC with result_count := 1
                           eval_examples :=
                             [{ example_id := 1, candidates := [], results := [], features := [] },
                              { example_id := 5, candidates := [], results := [(6, resC)], features := [] }] } ∧
    joinStep stC (6, Datum.featureEntry featC) =
      Except.error (PostprocError.assertionError 5 1) := by decide

/-- C4 as amended: if a joined Feature's recorded owning-example id
differs from the current aggregate's id, the merge loop halts with a
fatal error before inserting it, and consequently every feature attached
in a successfully completed join records its aggregate's id; a Result,
however, is inserted into the current aggregate without any ownership
check, so no analogous fatal policy applies to results. -/
theorem c4_feature_mismatch_fatal (st : JoinState) (k : ℤ) (f : Feature)
    (r : RawResult) (last : EvalExample)
    (hlast : st.eval_examples.getLast? = some last) :
    (last.example_id ≠ f.example_index →
      joinStep st (k, Datum.featureEntry f) =
        Except.error (PostprocError.assertionError last.example_id f.example_index)) ∧
    joinStep st (k, Datum.resultEntry r) =
      Except.ok { st with result_count := st.result_count + 1
                          eval_examples := updateLast (insertResult k r) st.eval_examples } ∧
    (∀ (l : List (ℤ × Datum)) (st' : JoinState),
      FeatOwnersOK st → joinAll l st = Except.ok st' → FeatOwnersOK st') := by
  refine ⟨?_, ?_, fun l st' => joinAll_preserves_featOwners l st st'⟩
  · intro hne
    simp [joinStep, hlast, hne]
  · simp only [joinStep, hlast]

/-- Witness for C4 at the concrete wrong-owner scenario. -/
theorem c4_feature_mismatch_fatal_witness :
    joinStep stC (6, Datum.featureEntry featC) =
      Except.error (PostprocError.assertionError 5 1) ∧
    joinStep stC (6, Datum.resultEntry resC) =
      Except.ok { stC with result_count := stC.result_count + 1
                           eval_examples := updateLast (insertResult 6 resC) stC.eval_examples } :=
  ⟨by
     have h := (c4_feature_mismatch_fatal stC 6 featC resC
       { example_id := 5, candidates := [], results := [], features := [] } (by decide)).1
       (by decide)
     simpa using h,
   (c4_feature_mismatch_fatal stC 6 featC resC
     { example_id := 5, candidates := [], results := [], features := [] } (by decide)).2.1⟩

/-! ### Scorer characterization lemmas -/

theorem computePredictionsW_eq {ee : EvalExample} {b m : ℕ} {s : ScoreSummary}
    {w : List PPWarn} (h : computePredictionsW ee b m = (some s, w)) :
    ∃ best, winningPrediction ee b m = Except.ok (some best) ∧
      s = { predicted_label :=
              { example_id := ee.example_id
                language := best.language
                passage_answer_index :=
                  (resolvePassageIndex ee.candidates best.start_offset best.end_offset).1
                passage_answer_score := best.score
                minimal_answer :=
                  { start_byte_offset := best.start_offset
                    end_byte_offset := best.end_offset }
                minimal_answer_score := best.score
                yes_no_answer := "NONE" }
            minimal_span_score := best.minimal_span_score
            cls_token_score := best.cls_token_score
            answer_type_logits := best.answer_type_logits } ∧
      w = (resolvePassageIndex ee.candidates best.start_offset best.end_offset).2 := by
  unfold computePredictionsW at h
  split at h
  · exact absurd h (by simp)
  · split at h
    · exact absurd h (by simp)
    · split at h
      · exact absurd h (by simp)
      · exact absurd h (by simp)
      · next best heq =>
        refine ⟨best, heq, ?_, ?_⟩
        · have := congrArg Prod.fst h
          simpa using this.symm
        · have := congrArg Prod.snd h
          simpa using this.symm

theorem winningPrediction_ok_some {ee : EvalExample} {b m : ℕ} {best : PredCand}
    (h : winningPrediction ee b m = Except.ok (some best)) :
    ∃ l, gatherAll ee.features b m ee.results = Except.ok l ∧ pickBest l = some best := by
  unfold winningPrediction at h
  cases hg : gatherAll ee.features b m ee.results with
  | error e => rw [hg] at h; exact absurd h (by simp [Except.map])
  | ok l =>
    rw [hg] at h
    simp only [Except.map, Except.ok.injEq] at h
    exact ⟨l, rfl, h⟩

theorem foldl_best_mem :
    ∀ (l : List PredCand) (b : PredCand),
      l.foldl (fun best q => if best.score < q.score then q else best) b = b ∨
      l.foldl (fun best q => if best.score < q.score then q else best) b ∈ l := by
  intro l
  induction l with
  | nil => intro b; left; rfl
  | cons q l ih =>
    intro b
    rcases ih (if b.score < q.score then q else b) with h | h
    · rw [List.foldl_cons]
      by_cases hb : b.score < q.score
      · right; rw [h]; simp [hb]
      · left; rw [h]; simp [hb]
    · right
      rw [List.foldl_cons]
      exact List.mem_cons_of_mem q h

theorem pickBest_mem {l : List PredCand} {p : PredCand} (h : pickBest l = some p) :
    p ∈ l := by
  cases l with
  | nil => simp [pickBest] at h
  | cons hd tl =>
    simp only [pickBest, Option.some.injEq] at h
    rcases foldl_best_mem tl hd with h' | h'
    · rw [← h, h']; exact List.mem_cons_self hd tl
    · rw [← h]; exact List.mem_cons_of_mem hd h'

theorem lookup_mem {α : Type} :
    ∀ {l : List (ℤ × α)} {k : ℤ} {v : α}, l.lookup k = some v → (k, v) ∈ l := by
  intro l
  induction l with
  | nil => intro k v h; simp [List.lookup] at h
  | cons p rest ih =>
    intro k v h
    obtain ⟨k', v'⟩ := p
    rw [List.lookup] at h
    by_cases hk : k == k'
    · rw [hk] at h
      simp only [Option.some.injEq] at h
      have : k = k' := by simpa using hk
      subst this; subst h
      exact List.mem_cons_self _ _
    · rw [Bool.eq_false_iff.2 hk] at h
      exact List.mem_cons_of_mem _ (ih h)

theorem gatherAll_mem {feats : List (ℤ × Feature)} {b m : ℕ} :
    ∀ {results : List (ℤ × RawResult)} {l : List PredCand} {p : PredCand},
      gatherAll feats b m results = Except.ok l → p ∈ l →
      ∃ uid r f, (uid, r) ∈ results ∧ feats.lookup uid = some f ∧
        p ∈ pairPredictions f r b m := by
  intro results
  induction results with
  | nil =>
    intro l p h hp
    simp only [gatherAll, Except.ok.injEq] at h
    rw [← h] at hp
    simp at hp
  | cons ur rest ih =>
    intro l p h hp
    obtain ⟨uid, r⟩ := ur
    rw [gatherAll] at h
    cases hlk : feats.lookup uid with
    | none => rw [hlk] at h; exact absurd h (by simp)
    | some f =>
      rw [hlk] at h
      cases hg : gatherAll feats b m rest with
      | error e => rw [hg] at h; exact absurd h (by simp [Except.map])
      | ok ps =>
        rw [hg] at h
        simp only [Except.map, Except.ok.injEq] at h
        rw [← h] at hp
        rcases List.mem_append.1 hp with hp | hp
        · exact ⟨uid, r, f, List.mem_cons_self _ _, hlk, hp⟩
        · obtain ⟨uid', r', f', hmem, hlk', hp'⟩ := ih hg hp
          exact ⟨uid', r', f', List.mem_cons_of_mem _ hmem, hlk', hp'⟩

theorem pairPredictions_valid {f : Feature} {r : RawResult} {b m : ℕ} {p : PredCand}
    (hp : p ∈ pairPredictions f r b m) :
    ∃ si ei : ℕ, si ≤ ei ∧ ei - si + 1 ≤ m ∧
      f.wp_start_offset.getD si (-1) ≠ -1 ∧ f.wp_end_offset.getD ei (-1) ≠ -1 ∧
      p.start_offset = f.wp_start_offset.getD si (-1) ∧
      p.end_offset = f.wp_end_offset.getD ei (-1) + 1 ∧
      p.start_index = si ∧ p.end_index = ei := by
  unfold pairPredictions at hp
  simp only [List.mem_flatMap, List.mem_filterMap] at hp
  obtain ⟨si, _, ei, _, hf⟩ := hp
  refine ⟨si, ei, ?_⟩
  split at hf
  · exact absurd hf (by simp)
  · split at hf
    · exact absurd hf (by simp)
    · split at hf
      · exact absurd hf (by simp)
      · split at hf
        · exact absurd hf (by simp)
        · next h1 h2 h3 h4 =>
          simp only [Option.some.injEq] at hf
          rw [← hf]
          exact ⟨Nat.le_of_not_lt h1, Nat.le_of_not_lt h4, h2, h3, rfl, rfl, rfl, rfl⟩

theorem firstContainingIndex_some (s e : ℤ) :
    ∀ (cands : List Candidate) (i : ℕ),
      firstContainingIndex s e cands = some i →
      (∃ c, cands[i]? = some c ∧ containsSpan c s e) ∧
      ∀ j, j < i → ∀ c, cands[j]? = some c → ¬ containsSpan c s e := by
  intro cands
  induction cands with
  | nil => intro i h; simp [firstContainingIndex] at h
  | cons c rest ih =>
    intro i h
    rw [firstContainingIndex] at h
    split at h
    · next hc =>
      simp only [Option.some.injEq] at h
      subst h
      exact ⟨⟨c, by simp, hc⟩, fun j hj => by omega⟩
    · next hc =>
      cases ho : firstContainingIndex s e rest with
      | none => rw [ho] at h; simp at h
      | some i' =>
        rw [ho] at h
        simp only [Option.map_some', Option.some.injEq] at h
        subst h
        obtain ⟨⟨c', hc', hcs⟩, hprev⟩ := ih i' ho
        refine ⟨⟨c', by simpa using hc', hcs⟩, ?_⟩
        intro j hj cj hgj
        cases j with
        | zero =>
          simp only [List.getElem?_cons_zero, Option.some.injEq] at hgj
          subst hgj
          exact hc
        | succ j' =>
          rw [List.getElem?_cons_succ] at hgj
          exact hprev j' (by omega) cj hgj

theorem firstContainingIndex_none (s e : ℤ) :
    ∀ (cands : List Candidate), firstContainingIndex s e cands = none →
      ∀ c ∈ cands, ¬ containsSpan c s e := by
  intro cands
  induction cands with
  | nil => intro _ c hc; simp at hc
  | cons c rest ih =>
    intro h c' hc'
    rw [firstContainingIndex] at h
    split at h
    · exact absurd h (by simp)
    · next hc =>
      rcases List.mem_cons.1 hc' with hc' | hc'
      · subst hc'; exact hc
      · cases ho : firstContainingIndex s e rest with
        | none => exact ih ho c' hc'
        | some i' => rw [ho] at h; simp at h

/-! ### C8: passage resolution (first containing candidate, fallback 0) -/

/-- C8: whenever the scorer returns a prediction, its
`passage_answer_index` is the ordinal of the first candidate, in stored
order, whose byte range contains the winning span (and then no warning is
recorded); when no candidate contains the span the index falls back to 0
and the `noPassage` warning is recorded. In particular, for candidates
`[(0,10),(10,25)]` and span `(12,20)` the index is 1, and for candidates
`[(0,5)]` and span `(10,15)` it falls back to 0 with a warning. -/
theorem c8_passage_resolution :
    (∀ (ee : EvalExample) (b m : ℕ) (s : ScoreSummary) (w : List PPWarn),
      computePredictionsW ee b m = (some s, w) →
      ((∃ c, ee.candidates[s.predicted_label.passage_answer_index]? = some c ∧
          containsSpan c s.predicted_label.minimal_answer.start_byte_offset
            s.predicted_label.minimal_answer.end_byte_offset) ∧
        (∀ j, j < s.predicted_label.passage_answer_index →
          ∀ c, ee.candidates[j]? = some c →
            ¬ containsSpan c s.predicted_label.minimal_answer.start_byte_offset
                s.predicted_label.minimal_answer.end_byte_offset) ∧
        w = []) ∨
      ((∀ c ∈ ee.candidates,
          ¬ containsSpan c s.predicted_label.minimal_answer.start_byte_offset
              s.predicted_label.minimal_answer.end_byte_offset) ∧
        s.predicted_label.passage_answer_index = 0 ∧ w = [PPWarn.noPassage])) ∧
    resolvePassageIndex
        [{ plaintext_start_byte := 0, plaintext_end_byte := 10 },
         { plaintext_start_byte := 10, plaintext_end_byte := 25 }] 12 20 = (1, []) ∧
    resolvePassageIndex [{ plaintext_start_byte := 0, plaintext_end_byte := 5 }] 10 15 =
      (0, [PPWarn.noPassage]) := by
  refine ⟨?_, by decide, by decide⟩
  intro ee b m s w h
  obtain ⟨best, _, hs, hw⟩ := computePredictionsW_eq h
  subst hs
  subst hw
  simp only
  unfold resolvePassageIndex
  cases hf : firstContainingIndex best.start_offset best.end_offset ee.candidates with
  | some i =>
    left
    obtain ⟨hex, hprev⟩ := firstContainingIndex_some _ _ _ _ hf
    exact ⟨by simpa [hf] using hex, by simpa [hf] using hprev, by simp [hf]⟩
  | none =>
    right
    exact ⟨by simpa [hf] using firstContainingIndex_none _ _ _ hf, by simp [hf], by simp [hf]⟩

/-- Witness for C8's general part at the end-to-end scenario input. -/
theorem c8_passage_resolution_witness :
    (∃ c, evalA.candidates[evalASummary.predicted_label.passage_answer_index]? = some c ∧
        containsSpan c evalASummary.predicted_label.minimal_answer.start_byte_offset
          evalASummary.predicted_label.minimal_answer.end_byte_offset) ∨
    evalASummary.predicted_label.passage_answer_index = 0 := by
  rcases c8_passage_resolution.1 evalA 2 10 evalASummary [] (by decide) with h | h
  · exact Or.inl h.1
  · exact Or.inr h.2.1

theorem getD_ne_default_lt {l : List ℤ} {i : ℕ} (h : l.getD i (-1) ≠ -1) :
    i < l.length := by
  by_contra hlt
  push_neg at hlt
  rw [List.getD_eq_getElem?_getD, List.getElem?_eq_none (by omega)] at h
  simp at h

/-! ### C3: span validity -/

/-- C3 counterexample: on `evalB` (a feature whose offset arrays are not
monotone) the scorer returns a span whose end byte offset is strictly
smaller than its start byte offset. -/
theorem c3_byte_order_counterexample :
    compute_predictions evalB 1 5 = some evalBSummary ∧
    evalBSummary.predicted_label.minimal_answer.end_byte_offset <
      evalBSummary.predicted_label.minimal_answer.start_byte_offset := by decide

/-- C3 as amended: whenever the scorer returns a prediction, the winning
span comes from a surviving token pair `(si, ei)` of one of the example's
feature/result pairs: `si ≤ ei`, the token length `ei - si + 1` does not
exceed `max_answer_length`, neither endpoint was taken from a `-1`
sentinel entry of the offset arrays, and the byte offsets are exactly the
offset-array entries (`end` exclusive). The byte offsets are ordered
(`start < end`) provided that feature's offset arrays are monotone — for
arbitrary offset arrays the code does not guarantee it. -/
theorem c3_span_validity (ee : EvalExample) (b m : ℕ) (s : ScoreSummary)
    (h : compute_predictions ee b m = some s) :
    ∃ uid r f, (uid, r) ∈ ee.results ∧ ee.features.lookup uid = some f ∧
      ∃ si ei : ℕ, si ≤ ei ∧ ei - si + 1 ≤ m ∧
        f.wp_start_offset.getD si (-1) ≠ -1 ∧ f.wp_end_offset.getD ei (-1) ≠ -1 ∧
        s.predicted_label.minimal_answer.start_byte_offset = f.wp_start_offset.getD si (-1) ∧
        s.predicted_label.minimal_answer.end_byte_offset = f.wp_end_offset.getD ei (-1) + 1 ∧
        (MonotoneOffsets f →
          s.predicted_label.minimal_answer.start_byte_offset <
            s.predicted_label.minimal_answer.end_byte_offset) := by
  have h' : computePredictionsW ee b m = (some s, (computePredictionsW ee b m).2) := by
    rw [← h]; rfl
  obtain ⟨best, hwin, hs, _⟩ := computePredictionsW_eq h'
  obtain ⟨l, hg, hpick⟩ := winningPrediction_ok_some hwin
  have hmem := pickBest_mem hpick
  obtain ⟨uid, r, f, hur, hlk, hp⟩ := gatherAll_mem hg hmem
  obtain ⟨si, ei, hle, hlen, hsne, hene, hso, heo, _, _⟩ := pairPredictions_valid hp
  refine ⟨uid, r, f, hur, hlk, si, ei, hle, hlen, hsne, hene, ?_, ?_, ?_⟩
  · rw [hs]; simpa using hso
  · rw [hs]; simpa using heo
  · intro hmono
    rw [hs]
    simp only
    rw [hso, heo]
    have hsi : si < f.wp_start_offset.length := getD_ne_default_lt hsne
    have hei : ei < f.wp_end_offset.length := getD_ne_default_lt hene
    have := hmono si (List.mem_range.2 hsi) ei (List.mem_range.2 hei) hle hsne hene
    omega

/-- Witness for C3 at the end-to-end scenario input. -/
theorem c3_span_validity_witness :
    ∃ uid r f, (uid, r) ∈ evalA.results ∧ evalA.features.lookup uid = some f ∧
      ∃ si ei : ℕ, si ≤ ei ∧ ei - si + 1 ≤ 10 ∧
        f.wp_start_offset.getD si (-1) ≠ -1 ∧ f.wp_end_offset.getD ei (-1) ≠ -1 ∧
        evalASummary.predicted_label.minimal_answer.start_byte_offset =
          f.wp_start_offset.getD si (-1) ∧
        evalASummary.predicted_label.minimal_answer.end_byte_offset =
          f.wp_end_offset.getD ei (-1) + 1 ∧
        (MonotoneOffsets f →
          evalASummary.predicted_label.minimal_answer.start_byte_offset <
            evalASummary.predicted_label.minimal_answer.end_byte_offset) :=
  c3_span_validity evalA 2 10 evalASummary (by decide)

/-! ### C7: get_best_indexes -/

theorem mem_enumFrom_drop1 {logits : List ℤ} {p : ℕ × ℤ}
    (hp : p ∈ (logits.drop 1).enumFrom 1) :
    1 ≤ p.1 ∧ p.1 < logits.length ∧ p.2 = logits.getD p.1 0 := by
  obtain ⟨i, x⟩ := p
  rw [List.mk_mem_enumFrom_iff_le_and_getElem?_sub] at hp
  obtain ⟨h1, h2⟩ := hp
  rw [List.getElem?_drop, show 1 + (i - 1) = i by omega] at h2
  obtain ⟨hlen, -⟩ := List.getElem?_eq_some.1 h2
  exact ⟨h1, hlen, by rw [List.getD_eq_getElem?_getD, h2]; rfl⟩

theorem enumFrom_drop1_mem {logits : List ℤ} {j : ℕ} (h1 : 1 ≤ j)
    (h2 : j < logits.length) : (j, logits.getD j 0) ∈ (logits.drop 1).enumFrom 1 := by
  rw [List.mk_mem_enumFrom_iff_le_and_getElem?_sub]
  refine ⟨h1, ?_⟩
  rw [List.getElem?_drop, show 1 + (j - 1) = j by omega, List.getD_eq_getElem?_getD]
  cases hg : logits[j]? with
  | none =>
    rw [List.getElem?_eq_none_iff] at hg
    omega
  | some v => rfl

/-- C7: `get_best_indexes` returns at most `n_best_size` positions, never
position 0, only valid positions `1 ≤ i < len(logits)`, in descending
order of logit value, and every returned position's logit is at least the
logit of every valid position that was not returned. -/
theorem c7_get_best_indexes (logits : List ℤ) (n : ℕ) :
    (get_best_indexes logits n).length ≤ n ∧
    (0 : ℕ) ∉ get_best_indexes logits n ∧
    (∀ i ∈ get_best_indexes logits n, 1 ≤ i ∧ i < logits.length) ∧
    List.Pairwise (fun i j => logits.getD j 0 ≤ logits.getD i 0)
      (get_best_indexes logits n) ∧
    (∀ i ∈ get_best_indexes logits n, ∀ j, 1 ≤ j → j < logits.length →
      j ∉ get_best_indexes logits n → logits.getD j 0 ≤ logits.getD i 0) := by
  have hperm := List.perm_insertionSort descBySnd ((logits.drop 1).enumFrom 1)
  have hsorted : List.Pairwise descBySnd
      (((logits.drop 1).enumFrom 1).insertionSort descBySnd) :=
    List.sorted_insertionSort descBySnd _
  have hmemval : ∀ p : ℕ × ℤ,
      p ∈ ((logits.drop 1).enumFrom 1).insertionSort descBySnd →
      1 ≤ p.1 ∧ p.1 < logits.length ∧ p.2 = logits.getD p.1 0 :=
    fun p hp => mem_enumFrom_drop1 (hperm.mem_iff.1 hp)
  have hvalid : ∀ i ∈ get_best_indexes logits n, 1 ≤ i ∧ i < logits.length := by
    intro i hi
    obtain ⟨p, hp, hpi⟩ := List.mem_map.1 hi
    obtain ⟨h1, h2, -⟩ := hmemval p (List.mem_of_mem_take hp)
    exact ⟨hpi ▸ h1, hpi ▸ h2⟩
  refine ⟨?_, ?_, hvalid, ?_, ?_⟩
  · rw [get_best_indexes, List.length_map, List.length_take]
    exact min_le_left _ _
  · intro h0
    exact absurd (hvalid 0 h0).1 (by omega)
  · rw [get_best_indexes, List.pairwise_map]
    refine List.Pairwise.imp_of_mem ?_
      (List.Pairwise.sublist (List.take_sublist n _) hsorted)
    intro a b ha hb hab
    obtain ⟨-, -, hav⟩ := hmemval a (List.mem_of_mem_take ha)
    obtain ⟨-, -, hbv⟩ := hmemval b (List.mem_of_mem_take hb)
    rw [← hav, ← hbv]
    exact hab
  · intro i hi j hj1 hj2 hjn
    obtain ⟨a, ha, hai⟩ := List.mem_map.1 hi
    obtain ⟨-, -, hav⟩ := hmemval a (List.mem_of_mem_take ha)
    have hjmem : (j, logits.getD j 0) ∈
        ((logits.drop 1).enumFrom 1).insertionSort descBySnd :=
      hperm.mem_iff.2 (enumFrom_drop1_mem hj1 hj2)
    rw [← List.take_append_drop n
      (((logits.drop 1).enumFrom 1).insertionSort descBySnd)] at hjmem hsorted
    rcases List.mem_append.1 hjmem with hjt | hjd
    · exact absurd (List.mem_map.2 ⟨(j, logits.getD j 0), hjt, rfl⟩) hjn
    · obtain ⟨-, -, hcross⟩ := List.pairwise_append.1 hsorted
      have := hcross a ha (j, logits.getD j 0) hjd
      rw [← hai, ← hav]
      exact this

/-! ### C9: order-insensitivity of the reduction driver -/

theorem foldl_dictSet_not_mem :
    ∀ (l : List (ℤ × PredictedLabel)) (acc : ℤ → Option PredictedLabel) (k : ℤ),
      k ∉ l.map (·.1) → l.foldl dictSet acc k = acc k := by
  intro l
  induction l with
  | nil => intro acc k _; rfl
  | cons p rest ih =>
    intro acc k hk
    simp only [List.map_cons, List.mem_cons] at hk
    push_neg at hk
    rw [List.foldl_cons, ih _ k hk.2]
    simp [dictSet, hk.1]

theorem foldl_dictSet_mem :
    ∀ (l : List (ℤ × PredictedLabel)) (acc : ℤ → Option PredictedLabel) (k : ℤ)
      (v : PredictedLabel), (l.map (·.1)).Nodup → (k, v) ∈ l →
      l.foldl dictSet acc k = some v := by
  intro l
  induction l with
  | nil => intro acc k v _ h; simp at h
  | cons p rest ih =>
    intro acc k v hnd hm
    rw [List.map_cons, List.nodup_cons] at hnd
    rw [List.foldl_cons]
    rcases List.mem_cons.1 hm with he | hm'
    · have hkr : k ∉ rest.map (·.1) := by rw [← he] at hnd; exact hnd.1
      rw [foldl_dictSet_not_mem rest _ k hkr, ← he]
      simp [dictSet]
    · exact ih _ k v hnd.2 hm'

theorem buildPredDict_perm {l₁ l₂ : List (ℤ × PredictedLabel)} (hp : l₁.Perm l₂)
    (hnd : (l₁.map (·.1)).Nodup) : buildPredDict l₁ = buildPredDict l₂ := by
  have hnd₂ : (l₂.map (·.1)).Nodup := ((hp.map (·.1)).nodup_iff).1 hnd
  funext k
  by_cases hk : k ∈ l₁.map (·.1)
  · obtain ⟨p, hpm, hpk⟩ := List.mem_map.1 hk
    have hm : (k, p.2) ∈ l₁ := by rw [← hpk]; exact hpm
    rw [buildPredDict, foldl_dictSet_mem l₁ _ k p.2 hnd hm,
      buildPredDict, foldl_dictSet_mem l₂ _ k p.2 hnd₂ (hp.mem_iff.1 hm)]
  · rw [buildPredDict, foldl_dictSet_not_mem l₁ _ k hk, buildPredDict,
      foldl_dictSet_not_mem l₂ _ k (fun hc => hk (((hp.map (·.1)).mem_iff).2 hc))]

theorem collectPredictions_keys_sublist (b m : ℕ) :
    ∀ ees : List EvalExample,
      ((collectPredictions ees b m).map (·.1)).Sublist (ees.map (·.example_id)) := by
  intro ees
  induction ees with
  | nil => simp [collectPredictions]
  | cons ee rest ih =>
    rw [collectPredictions, List.filterMap_cons]
    cases hc : construct_prediction_object ee b m with
    | none =>
      rw [List.map_cons]
      exact ih.cons _
    | some p =>
      have hp1 : p.1 = ee.example_id := by
        unfold construct_prediction_object at hc
        cases ho : compute_predictions ee b m with
        | none => rw [ho] at hc; exact absurd hc (by simp)
        | some s =>
          rw [ho] at hc
          simp only [Option.map_some', Option.some.injEq] at hc
          rw [← hc]
      rw [List.map_cons, List.map_cons, hp1]
      exact ih.cons₂ _

/-- C9: for every sequence of aggregates with pairwise distinct example
ids and every permutation of the order in which per-example results are
collected (modelling any worker count, including a sequential run), the
reduction driver produces the identical output mapping, because each
entry is keyed by `example_id` and each id is produced by exactly one
task. -/
theorem c9_order_insensitivity (ees₁ ees₂ : List EvalExample) (b m : ℕ)
    (hperm : ees₁.Perm ees₂) (hnodup : (ees₁.map (·.example_id)).Nodup) :
    runDriver ees₁ b m = runDriver ees₂ b m := by
  unfold runDriver
  refine buildPredDict_perm ?_ ?_
  · unfold collectPredictions
    exact hperm.filterMap _
  · exact List.Nodup.sublist (collectPredictions_keys_sublist b m ees₁) hnodup

/-- Witness for C9 on two concrete arrival orders of two aggregates. -/
theorem c9_order_insensitivity_witness :
    runDriver [evalA, evalB] 2 10 = runDriver [evalB, evalA] 2 10 :=
  c9_order_insensitivity [evalA, evalB] [evalB, evalA] 2 10 (by decide) (by decide)

/-! ### C1: merge-join helper lemmas -/

theorem exKeysOf_cons_example (k rid : ℤ) (c : List Candidate) (l : List (ℤ × Datum)) :
    exKeysOf ((k, Datum.exampleEntry rid c) :: l) = k :: exKeysOf l := rfl

theorem exKeysOf_cons_feature (k : ℤ) (f : Feature) (l : List (ℤ × Datum)) :
    exKeysOf ((k, Datum.featureEntry f) :: l) = exKeysOf l := rfl

theorem exKeysOf_cons_result (k : ℤ) (r : RawResult) (l : List (ℤ × Datum)) :
    exKeysOf ((k, Datum.resultEntry r) :: l) = exKeysOf l := rfl

theorem featKeysOf_cons_example (k rid : ℤ) (c : List Candidate) (l : List (ℤ × Datum)) :
    featKeysOf ((k, Datum.exampleEntry rid c) :: l) = featKeysOf l := rfl

theorem featKeysOf_cons_feature (k : ℤ) (f : Feature) (l : List (ℤ × Datum)) :
    featKeysOf ((k, Datum.featureEntry f) :: l) = k :: featKeysOf l := rfl

theorem featKeysOf_cons_result (k : ℤ) (r : RawResult) (l : List (ℤ × Datum)) :
    featKeysOf ((k, Datum.resultEntry r) :: l) = featKeysOf l := rfl

theorem resKeysOf_cons_example (k rid : ℤ) (c : List Candidate) (l : List (ℤ × Datum)) :
    resKeysOf ((k, Datum.exampleEntry rid c) :: l) = resKeysOf l := rfl

theorem resKeysOf_cons_feature (k : ℤ) (f : Feature) (l : List (ℤ × Datum)) :
    resKeysOf ((k, Datum.featureEntry f) :: l) = resKeysOf l := rfl

theorem resKeysOf_cons_result (k : ℤ) (r : RawResult) (l : List (ℤ × Datum)) :
    resKeysOf ((k, Datum.resultEntry r) :: l) = k :: resKeysOf l := rfl

theorem mem_exKeysOf {l : List (ℤ × Datum)} {k : ℤ} :
    k ∈ exKeysOf l ↔ ∃ rid c, (k, Datum.exampleEntry rid c) ∈ l := by
  unfold exKeysOf
  rw [List.mem_filterMap]
  constructor
  · rintro ⟨⟨k', d⟩, hmem, hf⟩
    cases d with
    | exampleEntry rid c =>
      simp only [Option.some.injEq] at hf
      exact ⟨rid, c, hf ▸ hmem⟩
    | featureEntry f => simp at hf
    | resultEntry r => simp at hf
  · rintro ⟨rid, c, h⟩
    exact ⟨(k, Datum.exampleEntry rid c), h, rfl⟩

theorem OwnsKey_unique {ids : List ℤ} {o o' k : ℤ} (h : OwnsKey ids o k)
    (h' : OwnsKey ids o' k) : o = o' := by
  obtain ⟨hm, hlt, hall⟩ := h
  obtain ⟨hm', hlt', hall'⟩ := h'
  rcases hall o' hm' with h1 | h1
  · rcases hall' o hm with h2 | h2 <;> omega
  · omega

theorem pairwise_lt_le_getLast :
    ∀ (l : List ℤ) (h : l ≠ []), l.Pairwise (· < ·) → ∀ x ∈ l, x ≤ l.getLast h := by
  intro l
  induction l with
  | nil => intro h; exact absurd rfl h
  | cons a t ih =>
    intro h hp x hx
    cases t with
    | nil =>
      simp only [List.mem_singleton] at hx
      subst hx
      rfl
    | cons b t' =>
      rw [List.getLast_cons (by simp)]
      obtain ⟨ha, hp'⟩ := List.pairwise_cons.1 hp
      rcases List.mem_cons.1 hx with hx | hx
      · subst hx
        exact le_of_lt (ha _ (List.getLast_mem (by simp)))
      · exact ih (by simp) hp' x hx

theorem updateLast_map_example_id (g : EvalExample → EvalExample)
    (hg : ∀ ee, (g ee).example_id = ee.example_id) :
    ∀ l : List EvalExample, (updateLast g l).map (·.example_id) = l.map (·.example_id) := by
  intro l
  induction l with
  | nil => rfl
  | cons x xs ih =>
    cases xs with
    | nil => simp [updateLast, hg]
    | cons y ys => simpa [updateLast] using ih

/-- Characterization of the merge loop on a key-sorted stream satisfying
the identifier invariant: the loop succeeds, produces one aggregate per
example record in stream order, and attaches exactly the features whose
recorded owning example matches and exactly the results whose key the
aggregate's example id owns. -/
theorem joinAll_sorted_spec :
    ∀ (l : List (ℤ × Datum)) (st : JoinState),
      List.Pairwise keyLE l →
      (∀ i ∈ st.ids, ∀ kd ∈ l, i < kd.1) →
      List.Pairwise (· < ·) (st.ids ++ exKeysOf l) →
      (∀ k rid c, (k, Datum.exampleEntry rid c) ∈ l → rid = k) →
      (∀ k f, (k, Datum.featureEntry f) ∈ l →
        OwnsKey (st.ids ++ exKeysOf l) f.example_index k) →
      (∀ k r, (k, Datum.resultEntry r) ∈ l →
        ∃ o, OwnsKey (st.ids ++ exKeysOf l) o k) →
      (aggFeatKeys st ++ featKeysOf l).Nodup →
      (aggResKeys st ++ resKeysOf l).Nodup →
      ∃ st', joinAll l st = Except.ok st' ∧
        st'.ids = st.ids ++ exKeysOf l ∧
        (∀ ee ∈ st'.eval_examples, ∀ p : ℤ × Feature,
          p ∈ ee.features ↔
            ((∃ old ∈ st.eval_examples, old.example_id = ee.example_id ∧ p ∈ old.features) ∨
             ((p.1, Datum.featureEntry p.2) ∈ l ∧ p.2.example_index = ee.example_id))) ∧
        (∀ ee ∈ st'.eval_examples, ∀ p : ℤ × RawResult,
          p ∈ ee.results ↔
            ((∃ old ∈ st.eval_examples, old.example_id = ee.example_id ∧ p ∈ old.results) ∨
             ((p.1, Datum.resultEntry p.2) ∈ l ∧
               OwnsKey (st.ids ++ exKeysOf l) ee.example_id p.1))) := by
  intro l
  induction l with
  | nil =>
    intro st _ _ hall _ _ _ _ _
    have hall' : List.Pairwise (· < ·) st.ids := by simpa [exKeysOf] using hall
    have hnd : st.ids.Nodup := hall'.imp ne_of_lt
    refine ⟨st, rfl, by simp [exKeysOf], ?_, ?_⟩
    · intro ee hee p
      constructor
      · intro hp
        exact Or.inl ⟨ee, hee, rfl, hp⟩
      · rintro (⟨old, hold, heq, hp⟩ | ⟨hmem, -⟩)
        · have : old = ee :=
            List.inj_on_of_nodup_map hnd hold hee heq
          exact this ▸ hp
        · simp at hmem
    · intro ee hee p
      constructor
      · intro hp
        exact Or.inl ⟨ee, hee, rfl, hp⟩
      · rintro (⟨old, hold, heq, hp⟩ | ⟨hmem, -⟩)
        · have : old = ee :=
            List.inj_on_of_nodup_map hnd hold hee heq
          exact this ▸ hp
        · simp at hmem
  | cons kd rest ih =>
    intro st hsorted hbase hall hexid hfeat hres hfk hrk
    obtain ⟨k, d⟩ := kd
    have hsorted' : List.Pairwise keyLE rest := hsorted.of_cons
    have hhead : ∀ kd' ∈ rest, k ≤ kd'.1 := fun kd' h =>
      (List.pairwise_cons.1 hsorted).1 kd' h
    cases d with
    | exampleEntry rid c =>
      have hrid : rid = k := hexid k rid c (List.mem_cons_self _ _)
      subst hrid
      rw [exKeysOf_cons_example] at hall hfeat hres
      rw [featKeysOf_cons_example] at hfk
      rw [resKeysOf_cons_example] at hrk
      have hkmem : rid ∈ st.ids ++ rid :: exKeysOf rest :=
        List.mem_append_right _ (List.mem_cons_self _ _)
      have hstrict : ∀ kd' ∈ rest, rid < kd'.1 := by
        rintro ⟨k', d'⟩ hkd'
        have hle := hhead (k', d') hkd'
        cases d' with
        | exampleEntry rid' c' =>
          have hk' : k' ∈ exKeysOf rest := mem_exKeysOf.2 ⟨rid', c', hkd'⟩
          have hpc : List.Pairwise (· < ·) (rid :: exKeysOf rest) :=
            (List.pairwise_append.1 hall).2.1
          exact (List.pairwise_cons.1 hpc).1 k' hk'
        | featureEntry f' =>
          obtain ⟨hm, hlt, hallk⟩ := hfeat k' f' (List.mem_cons_of_mem _ hkd')
          rcases hallk rid hkmem with h1 | h1 <;> omega
        | resultEntry r' =>
          obtain ⟨o, hm, hlt, hallk⟩ := hres k' r' (List.mem_cons_of_mem _ hkd')
          rcases hallk rid hkmem with h1 | h1 <;> omega
      have hListEq : (st.ids ++ [rid]) ++ exKeysOf rest = st.ids ++ rid :: exKeysOf rest := by
        rw [List.append_assoc, List.singleton_append]
      have hids₁ :
          ({ st with ex_count := st.ex_count + 1
                     eval_examples := st.eval_examples ++
                       [{ example_id := rid, candidates := c, results := [], features := [] }] } :
            JoinState).ids = st.ids ++ [rid] := by
        simp [JoinState.ids]
      obtain ⟨st₂, hjoin, hids, hfeatC, hresC⟩ :=
        ih { st with ex_count := st.ex_count + 1
                     eval_examples := st.eval_examples ++
                       [{ example_id := rid, candidates := c, results := [], features := [] }] }
          hsorted'
          (by
            rw [hids₁]
            intro i hi kd' hkd'
            rcases List.mem_append.1 hi with hi | hi
            · exact hbase i hi kd' (List.mem_cons_of_mem _ hkd')
            · rw [List.mem_singleton] at hi
              subst hi
              exact hstrict kd' hkd')
          (by rw [hids₁, hListEq]; exact hall)
          (fun k' rid' c' h => hexid k' rid' c' (List.mem_cons_of_mem _ h))
          (by
            intro k' f' h
            rw [hids₁, hListEq]
            exact hfeat k' f' (List.mem_cons_of_mem _ h))
          (by
            intro k' r' h
            rw [hids₁, hListEq]
            exact hres k' r' (List.mem_cons_of_mem _ h))
          (by simpa [aggFeatKeys, List.flatMap_append] using hfk)
          (by simpa [aggResKeys, List.flatMap_append] using hrk)
      refine ⟨st₂, ?_, ?_, ?_, ?_⟩
      · rw [joinAll]
        exact hjoin
      · rw [hids, hids₁, exKeysOf_cons_example, hListEq]
      · intro ee hee p
        rw [hfeatC ee hee p]
        constructor
        · rintro (⟨old, hold, hoid, hp⟩ | ⟨hmem, heidx⟩)
          · rcases List.mem_append.1 hold with h | h
            · exact Or.inl ⟨old, h, hoid, hp⟩
            · rw [List.mem_singleton] at h
              subst h
              simp at hp
          · exact Or.inr ⟨List.mem_cons_of_mem _ hmem, heidx⟩
        · rintro (⟨old, hold, hoid, hp⟩ | ⟨hmem, heidx⟩)
          · exact Or.inl ⟨old, List.mem_append_left _ hold, hoid, hp⟩
          · rcases List.mem_cons.1 hmem with h | h
            · exact absurd h (by simp)
            · exact Or.inr ⟨h, heidx⟩
      · intro ee hee p
        rw [hresC ee hee p, hids₁, hListEq, exKeysOf_cons_example]
        constructor
        · rintro (⟨old, hold, hoid, hp⟩ | ⟨hmem, hown⟩)
          · rcases List.mem_append.1 hold with h | h
            · exact Or.inl ⟨old, h, hoid, hp⟩
            · rw [List.mem_singleton] at h
              subst h
              simp at hp
          · exact Or.inr ⟨List.mem_cons_of_mem _ hmem, hown⟩
        · rintro (⟨old, hold, hoid, hp⟩ | ⟨hmem, hown⟩)
          · exact Or.inl ⟨old, List.mem_append_left _ hold, hoid, hp⟩
          · rcases List.mem_cons.1 hmem with h | h
            · exact absurd h (by simp)
            · exact Or.inr ⟨h, hown⟩
    | featureEntry f =>
      rw [exKeysOf_cons_feature] at hall hfeat hres
      rw [featKeysOf_cons_feature] at hfk
      rw [resKeysOf_cons_feature] at hrk
      obtain ⟨hoMem, hoLt, hoAll⟩ := hfeat k f (List.mem_cons_self _ _)
      have hoSt : f.example_index ∈ st.ids := by
        rcases List.mem_append.1 hoMem with h | h
        · exact h
        · obtain ⟨rid', c', hmem⟩ := mem_exKeysOf.1 h
          have := hhead (f.example_index, Datum.exampleEntry rid' c') hmem
          omega
      have hne : st.eval_examples ≠ [] := by
        intro h0
        unfold JoinState.ids at hoSt
        rw [h0] at hoSt
        simp at hoSt
      have hlget : st.eval_examples.getLast? = some (st.eval_examples.getLast hne) :=
        List.getLast?_eq_getLast _ hne
      have hlastmem : st.eval_examples.getLast hne ∈ st.eval_examples := List.getLast_mem hne
      have hlastid_mem : (st.eval_examples.getLast hne).example_id ∈ st.ids :=
        List.mem_map_of_mem _ hlastmem
      have hidsPW : st.ids.Pairwise (· < ·) := (List.pairwise_append.1 hall).1
      have hne' : st.ids ≠ [] := fun h => hne (by simpa [JoinState.ids] using h)
      have hmax : ∀ x ∈ st.ids, x ≤ (st.eval_examples.getLast hne).example_id := by
        intro x hx
        have h1 := pairwise_lt_le_getLast st.ids hne' hidsPW x hx
        unfold JoinState.ids at h1
        rw [List.getLast_map] at h1
        exact h1
      have heq : (st.eval_examples.getLast hne).example_id = f.example_index := by
        have h1 : (st.eval_examples.getLast hne).example_id ≤ f.example_index := by
          rcases hoAll _ (List.mem_append_left _ hlastid_mem) with h | h
          · exact h
          · have := hbase _ hlastid_mem (k, Datum.featureEntry f) (List.mem_cons_self _ _)
            omega
        exact le_antisymm h1 (hmax _ hoSt)
      have hkey_not : k ∉ (st.eval_examples.getLast hne).features.map (·.1) := by
        intro hk
        have hdis := (List.nodup_append.1 hfk).2.2
        have hinAgg : k ∈ aggFeatKeys st := by
          unfold aggFeatKeys
          exact List.mem_flatMap.2 ⟨_, hlastmem, hk⟩
        exact hdis hinAgg (List.mem_cons_self _ _)
      have hgupd : dictInsert k f (st.eval_examples.getLast hne).features =
          (st.eval_examples.getLast hne).features ++ [(k, f)] :=
        dictInsert_of_not_mem_keys hkey_not
      have hsplit : st.eval_examples =
          st.eval_examples.dropLast ++ [st.eval_examples.getLast hne] :=
        (List.dropLast_append_getLast hne).symm
      have hevalst₁ : updateLast (insertFeature k f) st.eval_examples =
          st.eval_examples.dropLast ++
            [insertFeature k f (st.eval_examples.getLast hne)] :=
        updateLast_eq _ _ hne
      have hids₁ :
          ({ st with feature_count := st.feature_count + 1
                     eval_examples := updateLast (insertFeature k f) st.eval_examples } :
            JoinState).ids = st.ids := by
        simp only [JoinState.ids]
        exact updateLast_map_example_id (insertFeature k f) (fun ee => rfl) _
      have hAggF : aggFeatKeys
          { st with feature_count := st.feature_count + 1
                    eval_examples := updateLast (insertFeature k f) st.eval_examples } =
          aggFeatKeys st ++ [k] := by
        unfold aggFeatKeys
        simp only
        rw [hevalst₁, List.flatMap_append]
        conv_rhs => rw [hsplit, List.flatMap_append]
        simp [insertFeature, hgupd, List.append_assoc]
      have hAggR : aggResKeys
          { st with feature_count := st.feature_count + 1
                    eval_examples := updateLast (insertFeature k f) st.eval_examples } =
          aggResKeys st := by
        unfold aggResKeys
        simp only
        rw [hevalst₁, List.flatMap_append]
        conv_rhs => rw [hsplit, List.flatMap_append]
        simp [insertFeature]
      obtain ⟨st₂, hjoin, hids, hfeatC, hresC⟩ :=
        ih { st with feature_count := st.feature_count + 1
                     eval_examples := updateLast (insertFeature k f) st.eval_examples }
          hsorted'
          (by
            rw [hids₁]
            intro i hi kd' hkd'
            exact hbase i hi kd' (List.mem_cons_of_mem _ hkd'))
          (by rw [hids₁]; exact hall)
          (fun k' rid' c' h => hexid k' rid' c' (List.mem_cons_of_mem _ h))
          (by
            intro k' f' h
            rw [hids₁]
            exact hfeat k' f' (List.mem_cons_of_mem _ h))
          (by
            intro k' r' h
            rw [hids₁]
            exact hres k' r' (List.mem_cons_of_mem _ h))
          (by
            rw [hAggF, List.append_assoc, List.singleton_append]
            exact hfk)
          (by rw [hAggR]; exact hrk)
      refine ⟨st₂, ?_, ?_, ?_, ?_⟩
      · rw [joinAll]
        simp only [joinStep, hlget, heq, if_pos]
        exact hjoin
      · rw [hids, hids₁, exKeysOf_cons_feature]
      · intro ee hee p
        rw [hfeatC ee hee p]
        constructor
        · rintro (⟨old₁, hold₁, hoid₁, hp₁⟩ | ⟨hmem, heidx⟩)
          · rw [hevalst₁] at hold₁
            rcases List.mem_append.1 hold₁ with h | h
            · exact Or.inl ⟨old₁, (List.dropLast_sublist _).subset h, hoid₁, hp₁⟩
            · rw [List.mem_singleton] at h
              subst h
              simp only [insertFeature] at hoid₁ hp₁
              rw [hgupd] at hp₁
              rcases List.mem_append.1 hp₁ with hp₁ | hp₁
              · exact Or.inl ⟨st.eval_examples.getLast hne, hlastmem, hoid₁, hp₁⟩
              · rw [List.mem_singleton] at hp₁
                subst hp₁
                exact Or.inr ⟨List.mem_cons_self _ _, by rw [← heq]; exact hoid₁⟩
          · exact Or.inr ⟨List.mem_cons_of_mem _ hmem, heidx⟩
        · rintro (⟨old, hold, hoid, hp⟩ | ⟨hmem, heidx⟩)
          · rw [hsplit] at hold
            rcases List.mem_append.1 hold with h | h
            · refine Or.inl ⟨old, ?_, hoid, hp⟩
              rw [hevalst₁]
              exact List.mem_append_left _ h
            · rw [List.mem_singleton] at h
              subst h
              refine Or.inl ⟨insertFeature k f (st.eval_examples.getLast hne), ?_, ?_, ?_⟩
              · rw [hevalst₁]
                exact List.mem_append_right _ (List.mem_singleton.2 rfl)
              · simpa [insertFeature] using hoid
              · simp only [insertFeature]
                rw [hgupd]
                exact List.mem_append_left _ hp
          · rcases List.mem_cons.1 hmem with h | h
            · have hp1 : p.1 = k := congrArg Prod.fst h
              have hp2 : p.2 = f := by
                have := congrArg Prod.snd h
                simpa using this
              refine Or.inl ⟨insertFeature k f (st.eval_examples.getLast hne), ?_, ?_, ?_⟩
              · rw [hevalst₁]
                exact List.mem_append_right _ (List.mem_singleton.2 rfl)
              · simp only [insertFeature]
                rw [heq, ← hp2]
                exact heidx
              · simp only [insertFeature]
                rw [hgupd]
                refine List.mem_append_right _ ?_
                rw [List.mem_singleton]
                exact Prod.ext_iff.2 ⟨hp1, hp2⟩
            · exact Or.inr ⟨h, heidx⟩
      · intro ee hee p
        rw [hresC ee hee p, hids₁, exKeysOf_cons_feature]
        constructor
        · rintro (⟨old₁, hold₁, hoid₁, hp₁⟩ | ⟨hmem, hown⟩)
          · rw [hevalst₁] at hold₁
            rcases List.mem_append.1 hold₁ with h | h
            · exact Or.inl ⟨old₁, (List.dropLast_sublist _).subset h, hoid₁, hp₁⟩
            · rw [List.mem_singleton] at h
              subst h
              simp only [insertFeature] at hoid₁ hp₁
              exact Or.inl ⟨st.eval_examples.getLast hne, hlastmem, hoid₁, hp₁⟩
          · exact Or.inr ⟨List.mem_cons_of_mem _ hmem, hown⟩
        · rintro (⟨old, hold, hoid, hp⟩ | ⟨hmem, hown⟩)
          · rw [hsplit] at hold
            rcases List.mem_append.1 hold with h | h
            · refine Or.inl ⟨old, ?_, hoid, hp⟩
              rw [hevalst₁]
              exact List.mem_append_left _ h
            · rw [List.mem_singleton] at h
              subst h
              refine Or.inl ⟨insertFeature k f (st.eval_examples.getLast hne), ?_, ?_, ?_⟩
              · rw [hevalst₁]
                exact List.mem_append_right _ (List.mem_singleton.2 rfl)
              · simpa [insertFeature] using hoid
              · simpa [insertFeature] using hp
          · rcases List.mem_cons.1 hmem with h | h
            · exact absurd h (by simp)
            · exact Or.inr ⟨h, hown⟩
    | resultEntry r =>
      rw [exKeysOf_cons_result] at hall hfeat hres
      rw [featKeysOf_cons_result] at hfk
      rw [resKeysOf_cons_result] at hrk
      obtain ⟨o, hoMem, hoLt, hoAll⟩ := hres k r (List.mem_cons_self _ _)
      have hoSt : o ∈ st.ids := by
        rcases List.mem_append.1 hoMem with h | h
        · exact h
        · obtain ⟨rid', c', hmem⟩ := mem_exKeysOf.1 h
          have := hhead (o, Datum.exampleEntry rid' c') hmem
          omega
      have hne : st.eval_examples ≠ [] := by
        intro h0
        unfold JoinState.ids at hoSt
        rw [h0] at hoSt
        simp at hoSt
      have hlget : st.eval_examples.getLast? = some (st.eval_examples.getLast hne) :=
        List.getLast?_eq_getLast _ hne
      have hlastmem : st.eval_examples.getLast hne ∈ st.eval_examples := List.getLast_mem hne
      have hlastid_mem : (st.eval_examples.getLast hne).example_id ∈ st.ids :=
        List.mem_map_of_mem _ hlastmem
      have hidsPW : st.ids.Pairwise (· < ·) := (List.pairwise_append.1 hall).1
      have hne' : st.ids ≠ [] := fun h => hne (by simpa [JoinState.ids] using h)
      have hmax : ∀ x ∈ st.ids, x ≤ (st.eval_examples.getLast hne).example_id := by
        intro x hx
        have h1 := pairwise_lt_le_getLast st.ids hne' hidsPW x hx
        unfold JoinState.ids at h1
        rw [List.getLast_map] at h1
        exact h1
      have heqo : (st.eval_examples.getLast hne).example_id = o := by
        have h1 : (st.eval_examples.getLast hne).example_id ≤ o := by
          rcases hoAll _ (List.mem_append_left _ hlastid_mem) with h | h
          · exact h
          · have := hbase _ hlastid_mem (k, Datum.resultEntry r) (List.mem_cons_self _ _)
            omega
        exact le_antisymm h1 (hmax _ hoSt)
      have hkey_not : k ∉ (st.eval_examples.getLast hne).results.map (·.1) := by
        intro hk
        have hdis := (List.nodup_append.1 hrk).2.2
        have hinAgg : k ∈ aggResKeys st := by
          unfold aggResKeys
          exact List.mem_flatMap.2 ⟨_, hlastmem, hk⟩
        exact hdis hinAgg (List.mem_cons_self _ _)
      have hgupd : dictInsert k r (st.eval_examples.getLast hne).results =
          (st.eval_examples.getLast hne).results ++ [(k, r)] :=
        dictInsert_of_not_mem_keys hkey_not
      have hsplit : st.eval_examples =
          st.eval_examples.dropLast ++ [st.eval_examples.getLast hne] :=
        (List.dropLast_append_getLast hne).symm
      have hevalst₁ : updateLast (insertResult k r) st.eval_examples =
          st.eval_examples.dropLast ++
            [insertResult k r (st.eval_examples.getLast hne)] :=
        updateLast_eq _ _ hne
      have hids₁ :
          ({ st with result_count := st.result_count + 1
                     eval_examples := updateLast (insertResult k r) st.eval_examples } :
            JoinState).ids = st.ids := by
        simp only [JoinState.ids]
        exact updateLast_map_example_id (insertResult k r) (fun ee => rfl) _
      have hAggF : aggFeatKeys
          { st with result_count := st.result_count + 1
                    eval_examples := updateLast (insertResult k r) st.eval_examples } =
          aggFeatKeys st := by
        unfold aggFeatKeys
        simp only
        rw [hevalst₁, List.flatMap_append]
        conv_rhs => rw [hsplit, List.flatMap_append]
        simp [insertResult]
      have hAggR : aggResKeys
          { st with result_count := st.result_count + 1
                    eval_examples := updateLast (insertResult k r) st.eval_examples } =
          aggResKeys st ++ [k] := by
        unfold aggResKeys
        simp only
        rw [hevalst₁, List.flatMap_append]
        conv_rhs => rw [hsplit, List.flatMap_append]
        simp [insertResult, hgupd, List.append_assoc]
      obtain ⟨st₂, hjoin, hids, hfeatC, hresC⟩ :=
        ih { st with result_count := st.result_count + 1
                     eval_examples := updateLast (insertResult k r) st.eval_examples }
          hsorted'
          (by
            rw [hids₁]
            intro i hi kd' hkd'
            exact hbase i hi kd' (List.mem_cons_of_mem _ hkd'))
          (by rw [hids₁]; exact hall)
          (fun k' rid' c' h => hexid k' rid' c' (List.mem_cons_of_mem _ h))
          (by
            intro k' f' h
            rw [hids₁]
            exact hfeat k' f' (List.mem_cons_of_mem _ h))
          (by
            intro k' r' h
            rw [hids₁]
            exact hres k' r' (List.mem_cons_of_mem _ h))
          (by rw [hAggF]; exact hfk)
          (by
            rw [hAggR, List.append_assoc, List.singleton_append]
            exact hrk)
      refine ⟨st₂, ?_, ?_, ?_, ?_⟩
      · rw [joinAll]
        simp only [joinStep, hlget]
        exact hjoin
      · rw [hids, hids₁, exKeysOf_cons_result]
      · intro ee hee p
        rw [hfeatC ee hee p]
        constructor
        · rintro (⟨old₁, hold₁, hoid₁, hp₁⟩ | ⟨hmem, heidx⟩)
          · rw [hevalst₁] at hold₁
            rcases List.mem_append.1 hold₁ with h | h
            · exact Or.inl ⟨old₁, (List.dropLast_sublist _).subset h, hoid₁, hp₁⟩
            · rw [List.mem_singleton] at h
              subst h
              simp only [insertResult] at hoid₁ hp₁
              exact Or.inl ⟨st.eval_examples.getLast hne, hlastmem, hoid₁, hp₁⟩
          · exact Or.inr ⟨List.mem_cons_of_mem _ hmem, heidx⟩
        · rintro (⟨old, hold, hoid, hp⟩ | ⟨hmem, heidx⟩)
          · rw [hsplit] at hold
            rcases List.mem_append.1 hold with h | h
            · refine Or.inl ⟨old, ?_, hoid, hp⟩
              rw [hevalst₁]
              exact List.mem_append_left _ h
            · rw [List.mem_singleton] at h
              subst h
              refine Or.inl ⟨insertResult k r (st.eval_examples.getLast hne), ?_, ?_, ?_⟩
              · rw [hevalst₁]
                exact List.mem_append_right _ (List.mem_singleton.2 rfl)
              · simpa [insertResult] using hoid
              · simpa [insertResult] using hp
          · rcases List.mem_cons.1 hmem with h | h
            · exact absurd h (by simp)
            · exact Or.inr ⟨h, heidx⟩
      · intro ee hee p
        rw [hresC ee hee p, hids₁, exKeysOf_cons_result]
        constructor
        · rintro (⟨old₁, hold₁, hoid₁, hp₁⟩ | ⟨hmem, hown⟩)
          · rw [hevalst₁] at hold₁
            rcases List.mem_append.1 hold₁ with h | h
            · exact Or.inl ⟨old₁, (List.dropLast_sublist _).subset h, hoid₁, hp₁⟩
            · rw [List.mem_singleton] at h
              subst h
              simp only [insertResult] at hoid₁ hp₁
              rw [hgupd] at hp₁
              rcases List.mem_append.1 hp₁ with hp₁ | hp₁
              · exact Or.inl ⟨st.eval_examples.getLast hne, hlastmem, hoid₁, hp₁⟩
              · rw [List.mem_singleton] at hp₁
                subst hp₁
                refine Or.inr ⟨List.mem_cons_self _ _, ?_⟩
                rw [← hoid₁, heqo]
                exact ⟨hoMem, hoLt, hoAll⟩
          · exact Or.inr ⟨List.mem_cons_of_mem _ hmem, hown⟩
        · rintro (⟨old, hold, hoid, hp⟩ | ⟨hmem, hown⟩)
          · rw [hsplit] at hold
            rcases List.mem_append.1 hold with h | h
            · refine Or.inl ⟨old, ?_, hoid, hp⟩
              rw [hevalst₁]
              exact List.mem_append_left _ h
            · rw [List.mem_singleton] at h
              subst h
              refine Or.inl ⟨insertResult k r (st.eval_examples.getLast hne), ?_, ?_, ?_⟩
              · rw [hevalst₁]
                exact List.mem_append_right _ (List.mem_singleton.2 rfl)
              · simpa [insertResult] using hoid
              · simp only [insertResult]
                rw [hgupd]
                exact List.mem_append_left _ hp
          · rcases List.mem_cons.1 hmem with h | h
            · have hp1 : p.1 = k := congrArg Prod.fst h
              have hp2 : p.2 = r := by
                have := congrArg Prod.snd h
                simpa using this
              have heeo : ee.example_id = o := by
                refine OwnsKey_unique ?_ ⟨hoMem, hoLt, hoAll⟩
                rw [← hp1]
                exact hown
              refine Or.inl ⟨insertResult k r (st.eval_examples.getLast hne), ?_, ?_, ?_⟩
              · rw [hevalst₁]
                exact List.mem_append_right _ (List.mem_singleton.2 rfl)
              · simp only [insertResult]
                rw [heqo]
                exact heeo.symm
              · simp only [insertResult]
                rw [hgupd]
                exact List.mem_append_right _ (List.mem_singleton.2 (Prod.ext_iff.2 ⟨hp1, hp2⟩))
            · exact Or.inr ⟨h, hown⟩

theorem toInt32_eq_self {n : ℤ} (h0 : 0 ≤ n) (h1 : n < 2 ^ 31) : toInt32 n = n := by
  have h2 : (2 : ℤ) ^ 31 = 2147483648 := by norm_num
  have h3 : (2 : ℤ) ^ 32 = 4294967296 := by norm_num
  unfold toInt32
  rw [h2] at h1
  rw [h2, h3, Int.emod_eq_of_lt (by omega) (by omega)]
  omega

theorem OwnsKey_perm {ids ids' : List ℤ} {o k : ℤ} (hp : ids.Perm ids')
    (h : OwnsKey ids o k) : OwnsKey ids' o k := by
  obtain ⟨h1, h2, h3⟩ := h
  exact ⟨hp.mem_iff.1 h1, h2, fun e he => h3 e (hp.mem_iff.2 he)⟩

theorem exKeysOf_map_examples (cands : List (ℤ × List Candidate)) :
    exKeysOf (cands.map (fun p => (toInt32 p.1, Datum.exampleEntry p.1 p.2))) =
      cands.map (fun p => toInt32 p.1) := by
  induction cands with
  | nil => rfl
  | cons p l ih => simp only [List.map_cons, exKeysOf_cons_example, ih]

theorem exKeysOf_map_results (results : List RawResult) :
    exKeysOf (results.map (fun r => (r.unique_id + 1, Datum.resultEntry r))) = [] := by
  induction results with
  | nil => rfl
  | cons r l ih => simp only [List.map_cons, exKeysOf_cons_result, ih]

theorem exKeysOf_map_features (feats : List Feature) :
    exKeysOf (feats.map (fun f => (toInt32 (f.unique_ids + 1), Datum.featureEntry f))) = [] := by
  induction feats with
  | nil => rfl
  | cons f l ih => simp only [List.map_cons, exKeysOf_cons_feature, ih]

theorem featKeysOf_map_examples (cands : List (ℤ × List Candidate)) :
    featKeysOf (cands.map (fun p => (toInt32 p.1, Datum.exampleEntry p.1 p.2))) = [] := by
  induction cands with
  | nil => rfl
  | cons p l ih => simp only [List.map_cons, featKeysOf_cons_example, ih]

theorem featKeysOf_map_results (results : List RawResult) :
    featKeysOf (results.map (fun r => (r.unique_id + 1, Datum.resultEntry r))) = [] := by
  induction results with
  | nil => rfl
  | cons r l ih => simp only [List.map_cons, featKeysOf_cons_result, ih]

theorem featKeysOf_map_features (feats : List Feature) :
    featKeysOf (feats.map (fun f => (toInt32 (f.unique_ids + 1), Datum.featureEntry f))) =
      feats.map (fun f => toInt32 (f.unique_ids + 1)) := by
  induction feats with
  | nil => rfl
  | cons f l ih => simp only [List.map_cons, featKeysOf_cons_feature, ih]

theorem resKeysOf_map_examples (cands : List (ℤ × List Candidate)) :
    resKeysOf (cands.map (fun p => (toInt32 p.1, Datum.exampleEntry p.1 p.2))) = [] := by
  induction cands with
  | nil => rfl
  | cons p l ih => simp only [List.map_cons, resKeysOf_cons_example, ih]

theorem resKeysOf_map_results (results : List RawResult) :
    resKeysOf (results.map (fun r => (r.unique_id + 1, Datum.resultEntry r))) =
      results.map (fun r => r.unique_id + 1) := by
  induction results with
  | nil => rfl
  | cons r l ih => simp only [List.map_cons, resKeysOf_cons_result, ih]

theorem resKeysOf_map_features (feats : List Feature) :
    resKeysOf (feats.map (fun f => (toInt32 (f.unique_ids + 1), Datum.featureEntry f))) = [] := by
  induction feats with
  | nil => rfl
  | cons f l ih => simp only [List.map_cons, resKeysOf_cons_feature, ih]

/-- C1 as amended: for every input whose ids satisfy the identifier
invariant — example ids pairwise distinct, each feature's derived id
`unique_ids + 1` owned (strictly after its recorded owning example's id
and strictly before the next example id) with distinct feature ids, each
result's derived id `unique_id + 1` owned by some example id with
distinct result ids — and whose example ids and feature-derived ids are
int32-representable (`0 ≤ id < 2^31`, so the `np.int32` cast is the
identity), the merge-join succeeds, every feature and result is attached
to the aggregate of its owning example and to no other, and the
aggregates appear in strictly increasing example-id order. -/
theorem c1_join_completeness (cands : List (ℤ × List Candidate))
    (feats : List Feature) (results : List RawResult)
    (hndEx : (cands.map (·.1)).Nodup)
    (hrangeEx : ∀ p ∈ cands, 0 ≤ p.1 ∧ p.1 < 2 ^ 31)
    (hrangeF : ∀ f ∈ feats, 0 ≤ f.unique_ids + 1 ∧ f.unique_ids + 1 < 2 ^ 31)
    (hownF : ∀ f ∈ feats, OwnsKey (cands.map (·.1)) f.example_index (f.unique_ids + 1))
    (hownR : ∀ r ∈ results, ∃ o, OwnsKey (cands.map (·.1)) o (r.unique_id + 1))
    (hndF : (feats.map (·.unique_ids)).Nodup)
    (hndR : (results.map (·.unique_id)).Nodup) :
    ∃ st, runJoin cands feats results = Except.ok st ∧
      st.ids.Perm (cands.map (·.1)) ∧
      st.ids.Pairwise (· < ·) ∧
      (∀ f ∈ feats, ∀ ee ∈ st.eval_examples,
        ((f.unique_ids + 1, f) ∈ ee.features ↔ ee.example_id = f.example_index)) ∧
      (∀ r ∈ results, ∀ ee ∈ st.eval_examples,
        ((r.unique_id + 1, r) ∈ ee.results ↔
          OwnsKey (cands.map (·.1)) ee.example_id (r.unique_id + 1))) := by
  have hLperm : (mergedStream cands feats results).Perm
      (cands.map (fun p => (toInt32 p.1, Datum.exampleEntry p.1 p.2)) ++
       results.map (fun r => (r.unique_id + 1, Datum.resultEntry r)) ++
       feats.map (fun f => (toInt32 (f.unique_ids + 1), Datum.featureEntry f))) :=
    List.perm_insertionSort keyLE _
  have hLsorted : List.Pairwise keyLE (mergedStream cands feats results) :=
    List.sorted_insertionSort keyLE _
  have hmemEx : ∀ k rid c, (k, Datum.exampleEntry rid c) ∈ mergedStream cands feats results →
      (rid, c) ∈ cands ∧ k = toInt32 rid := by
    intro k rid c h
    have h' := hLperm.mem_iff.1 h
    rcases List.mem_append.1 h' with h'' | h''
    · rcases List.mem_append.1 h'' with h3 | h3
      · obtain ⟨p, hp, he⟩ := List.mem_map.1 h3
        have h1 : toInt32 p.1 = k := congrArg Prod.fst he
        have h2 := congrArg Prod.snd he
        simp only [Datum.exampleEntry.injEq] at h2
        obtain ⟨hr, hc⟩ := h2
        constructor
        · rw [← hr, ← hc]; exact hp
        · rw [← hr]; exact h1.symm
      · obtain ⟨r, hr, he⟩ := List.mem_map.1 h3
        exact absurd (congrArg Prod.snd he) (by simp)
    · obtain ⟨f, hf, he⟩ := List.mem_map.1 h''
      exact absurd (congrArg Prod.snd he) (by simp)
  have hmemF : ∀ k f, (k, Datum.featureEntry f) ∈ mergedStream cands feats results →
      f ∈ feats ∧ k = toInt32 (f.unique_ids + 1) := by
    intro k f h
    have h' := hLperm.mem_iff.1 h
    rcases List.mem_append.1 h' with h'' | h''
    · rcases List.mem_append.1 h'' with h3 | h3
      · obtain ⟨p, hp, he⟩ := List.mem_map.1 h3
        exact absurd (congrArg Prod.snd he) (by simp)
      · obtain ⟨r, hr, he⟩ := List.mem_map.1 h3
        exact absurd (congrArg Prod.snd he) (by simp)
    · obtain ⟨f', hf, he⟩ := List.mem_map.1 h''
      have h1 : toInt32 (f'.unique_ids + 1) = k := congrArg Prod.fst he
      have h2 := congrArg Prod.snd he
      simp only [Datum.featureEntry.injEq] at h2
      subst h2
      exact ⟨hf, h1.symm⟩
  have hmemR : ∀ k r, (k, Datum.resultEntry r) ∈ mergedStream cands feats results →
      r ∈ results ∧ k = r.unique_id + 1 := by
    intro k r h
    have h' := hLperm.mem_iff.1 h
    rcases List.mem_append.1 h' with h'' | h''
    · rcases List.mem_append.1 h'' with h3 | h3
      · obtain ⟨p, hp, he⟩ := List.mem_map.1 h3
        exact absurd (congrArg Prod.snd he) (by simp)
      · obtain ⟨r', hr, he⟩ := List.mem_map.1 h3
        have h1 : r'.unique_id + 1 = k := congrArg Prod.fst he
        have h2 := congrArg Prod.snd he
        simp only [Datum.resultEntry.injEq] at h2
        subst h2
        exact ⟨hr, h1.symm⟩
    · obtain ⟨f, hf, he⟩ := List.mem_map.1 h''
      exact absurd (congrArg Prod.snd he) (by simp)
  have hmemFIn : ∀ f ∈ feats,
      (toInt32 (f.unique_ids + 1), Datum.featureEntry f) ∈ mergedStream cands feats results :=
    fun f hf => hLperm.mem_iff.2
      (List.mem_append_right _ (List.mem_map_of_mem _ hf))
  have hmemRIn : ∀ r ∈ results,
      (r.unique_id + 1, Datum.resultEntry r) ∈ mergedStream cands feats results :=
    fun r hr => hLperm.mem_iff.2
      (List.mem_append_left _ (List.mem_append_right _ (List.mem_map_of_mem _ hr)))
  have hfixEx : cands.map (fun p => toInt32 p.1) = cands.map (·.1) :=
    List.map_congr_left (fun p hp =>
      toInt32_eq_self (hrangeEx p hp).1 (hrangeEx p hp).2)
  have hfixF : feats.map (fun f => toInt32 (f.unique_ids + 1)) =
      feats.map (fun f => f.unique_ids + 1) :=
    List.map_congr_left (fun f hf =>
      toInt32_eq_self (hrangeF f hf).1 (hrangeF f hf).2)
  have hExPerm : (exKeysOf (mergedStream cands feats results)).Perm (cands.map (·.1)) := by
    have hp : (exKeysOf (mergedStream cands feats results)).Perm (exKeysOf
        (cands.map (fun p => (toInt32 p.1, Datum.exampleEntry p.1 p.2)) ++
         results.map (fun r => (r.unique_id + 1, Datum.resultEntry r)) ++
         feats.map (fun f => (toInt32 (f.unique_ids + 1), Datum.featureEntry f)))) :=
      hLperm.filterMap _
    rw [show exKeysOf
        (cands.map (fun p => (toInt32 p.1, Datum.exampleEntry p.1 p.2)) ++
         results.map (fun r => (r.unique_id + 1, Datum.resultEntry r)) ++
         feats.map (fun f => (toInt32 (f.unique_ids + 1), Datum.featureEntry f))) =
        cands.map (·.1) from ?_] at hp
    · exact hp
    · unfold exKeysOf
      rw [List.filterMap_append, List.filterMap_append]
      have e1 := exKeysOf_map_examples cands
      have e2 := exKeysOf_map_results results
      have e3 := exKeysOf_map_features feats
      unfold exKeysOf at e1 e2 e3
      rw [e1, e2, e3, List.append_nil, List.append_nil, hfixEx]
  have hFeatKeysPerm : (featKeysOf (mergedStream cands feats results)).Perm
      (feats.map (fun f => f.unique_ids + 1)) := by
    have hp : (featKeysOf (mergedStream cands feats results)).Perm (featKeysOf
        (cands.map (fun p => (toInt32 p.1, Datum.exampleEntry p.1 p.2)) ++
         results.map (fun r => (r.unique_id + 1, Datum.resultEntry r)) ++
         feats.map (fun f => (toInt32 (f.unique_ids + 1), Datum.featureEntry f)))) :=
      hLperm.filterMap _
    rw [show featKeysOf
        (cands.map (fun p => (toInt32 p.1, Datum.exampleEntry p.1 p.2)) ++
         results.map (fun r => (r.unique_id + 1, Datum.resultEntry r)) ++
         feats.map (fun f => (toInt32 (f.unique_ids + 1), Datum.featureEntry f))) =
        feats.map (fun f => f.unique_ids + 1) from ?_] at hp
    · exact hp
    · unfold featKeysOf
      rw [List.filterMap_append, List.filterMap_append]
      have e1 := featKeysOf_map_examples cands
      have e2 := featKeysOf_map_results results
      have e3 := featKeysOf_map_features feats
      unfold featKeysOf at e1 e2 e3
      rw [e1, e2, e3, List.nil_append, List.nil_append, hfixF]
  have hResKeysPerm : (resKeysOf (mergedStream cands feats results)).Perm
      (results.map (fun r => r.unique_id + 1)) := by
    have hp : (resKeysOf (mergedStream cands feats results)).Perm (resKeysOf
        (cands.map (fun p => (toInt32 p.1, Datum.exampleEntry p.1 p.2)) ++
         results.map (fun r => (r.unique_id + 1, Datum.resultEntry r)) ++
         feats.map (fun f => (toInt32 (f.unique_ids + 1), Datum.featureEntry f)))) :=
      hLperm.filterMap _
    rw [show resKeysOf
        (cands.map (fun p => (toInt32 p.1, Datum.exampleEntry p.1 p.2)) ++
         results.map (fun r => (r.unique_id + 1, Datum.resultEntry r)) ++
         feats.map (fun f => (toInt32 (f.unique_ids + 1), Datum.featureEntry f))) =
        results.map (fun r => r.unique_id + 1) from ?_] at hp
    · exact hp
    · unfold resKeysOf
      rw [List.filterMap_append, List.filterMap_append]
      have e1 := resKeysOf_map_examples cands
      have e2 := resKeysOf_map_results results
      have e3 := resKeysOf_map_features feats
      unfold resKeysOf at e1 e2 e3
      rw [e1, e2, e3, List.nil_append, List.append_nil]
  have hExLe : List.Pairwise (· ≤ ·) (exKeysOf (mergedStream cands feats results)) := by
    refine List.Pairwise.filterMap _ ?_ hLsorted
    rintro ⟨ka, da⟩ ⟨kb, db⟩ hr b hb b' hb'
    cases da with
    | exampleEntry rida ca =>
      cases db with
      | exampleEntry ridb cb =>
        simp only [Option.mem_def, Option.some.injEq] at hb hb'
        subst hb
        subst hb'
        exact hr
      | featureEntry fb => simp [Option.mem_def] at hb'
      | resultEntry rb => simp [Option.mem_def] at hb'
    | featureEntry fa => simp [Option.mem_def] at hb
    | resultEntry ra => simp [Option.mem_def] at hb
  have hExNodup : (exKeysOf (mergedStream cands feats results)).Nodup :=
    hExPerm.nodup_iff.2 hndEx
  have hExLt : List.Pairwise (· < ·) (exKeysOf (mergedStream cands feats results)) :=
    (hExLe.and hExNodup).imp (fun h => lt_of_le_of_ne h.1 h.2)
  have hpermIds : ((initJoinState.ids ++ exKeysOf (mergedStream cands feats results))).Perm
      (cands.map (·.1)) := by
    simpa [initJoinState, JoinState.ids] using hExPerm
  obtain ⟨st, hjoin, hids, hfeatC, hresC⟩ :=
    joinAll_sorted_spec (mergedStream cands feats results) initJoinState
      hLsorted
      (by intro i hi; simp [initJoinState, JoinState.ids] at hi)
      (by simpa [initJoinState, JoinState.ids] using hExLt)
      (by
        intro k rid c h
        obtain ⟨hp, hk⟩ := hmemEx k rid c h
        rw [hk, toInt32_eq_self (hrangeEx (rid, c) hp).1 (hrangeEx (rid, c) hp).2])
      (by
        intro k f h
        obtain ⟨hf, hk⟩ := hmemF k f h
        rw [hk, toInt32_eq_self (hrangeF f hf).1 (hrangeF f hf).2]
        exact OwnsKey_perm hpermIds.symm (hownF f hf))
      (by
        intro k r h
        obtain ⟨hr, hk⟩ := hmemR k r h
        obtain ⟨o, ho⟩ := hownR r hr
        rw [hk]
        exact ⟨o, OwnsKey_perm hpermIds.symm ho⟩)
      (by
        have hnd1 : (feats.map (fun f => f.unique_ids + 1)).Nodup := by
          have := hndF.map (add_left_injective (1 : ℤ))
          rwa [List.map_map] at this
        have : (featKeysOf (mergedStream cands feats results)).Nodup :=
          hFeatKeysPerm.nodup_iff.2 hnd1
        simpa [aggFeatKeys, initJoinState] using this)
      (by
        have hnd1 : (results.map (fun r => r.unique_id + 1)).Nodup := by
          have := hndR.map (add_left_injective (1 : ℤ))
          rwa [List.map_map] at this
        have : (resKeysOf (mergedStream cands feats results)).Nodup :=
          hResKeysPerm.nodup_iff.2 hnd1
        simpa [aggResKeys, initJoinState] using this)
  refine ⟨st, hjoin, ?_, ?_, ?_, ?_⟩
  · rw [hids]
    simpa [initJoinState, JoinState.ids] using hExPerm
  · rw [hids]
    simpa [initJoinState, JoinState.ids] using hExLt
  · intro f hf ee hee
    have h := hfeatC ee hee (f.unique_ids + 1, f)
    have hin : ((f.unique_ids + 1 : ℤ), Datum.featureEntry f) ∈
        mergedStream cands feats results := by
      have := hmemFIn f hf
      rwa [toInt32_eq_self (hrangeF f hf).1 (hrangeF f hf).2] at this
    constructor
    · intro hp
      rcases h.1 hp with ⟨old, hold, -, -⟩ | ⟨-, he⟩
      · simp [initJoinState] at hold
      · exact he.symm
    · intro he
      exact h.2 (Or.inr ⟨hin, he.symm⟩)
  · intro r hr ee hee
    have h := hresC ee hee (r.unique_id + 1, r)
    have hin : ((r.unique_id + 1 : ℤ), Datum.resultEntry r) ∈
        mergedStream cands feats results := hmemRIn r hr
    constructor
    · intro hp
      rcases h.1 hp with ⟨old, hold, -, -⟩ | ⟨-, hown⟩
      · simp [initJoinState] at hold
      · exact OwnsKey_perm hpermIds hown
    · intro hown
      exact h.2 (Or.inr ⟨hin, OwnsKey_perm hpermIds.symm hown⟩)

/-- C1 counterexample: with example ids `1` and `2^31` and a feature of
example `2^31` with derived id `2^31 + 1`, the raw identifier invariant
holds (distinct example ids; the feature's id sorts strictly after its
owning example's id, and no example id follows), yet because the sort
keys are cast to int32 the join materializes the aggregates as
`[2^31, 1]` — not in example-id order, contradicting the claim for
unrestricted ids. -/
theorem c1_wraparound_counterexample :
    ([(1 : ℤ), 2 ^ 31]).Nodup ∧
    OwnsKey [1, 2 ^ 31] featW.example_index (featW.unique_ids + 1) ∧
    (runJoin [(1, []), (2 ^ 31, [])] [featW] []).map JoinState.ids =
      Except.ok [2 ^ 31, 1] ∧
    ¬ ([(2 : ℤ) ^ 31, 1]).Pairwise (· < ·) := by decide

/-- Witness for C1 on a concrete two-example input. -/
theorem c1_join_completeness_witness :
    ∃ st, runJoin
        [((1 : ℤ), [({ plaintext_start_byte := 0, plaintext_end_byte := 10 } : Candidate)]),
         ((5 : ℤ), ([] : List Candidate))] [featJ] [resJ] = Except.ok st ∧
      st.ids.Perm [1, 5] ∧
      st.ids.Pairwise (· < ·) ∧
      (∀ f ∈ [featJ], ∀ ee ∈ st.eval_examples,
        ((f.unique_ids + 1, f) ∈ ee.features ↔ ee.example_id = f.example_index)) ∧
      (∀ r ∈ [resJ], ∀ ee ∈ st.eval_examples,
        ((r.unique_id + 1, r) ∈ ee.results ↔
          OwnsKey [1, 5] ee.example_id (r.unique_id + 1))) :=
  c1_join_completeness _ _ _ (by decide) (by decide) (by decide) (by decide)
    (by
      intro r hr
      rw [List.mem_singleton] at hr
      subst hr
      exact ⟨1, by decide⟩)
    (by decide) (by decide)

/-- Witness for C7 at the end-to-end scenario's start logits. -/
theorem c7_get_best_indexes_witness :
    (get_best_indexes [5, 1, 9, 2] 2).length ≤ 2 ∧
    (0 : ℕ) ∉ get_best_indexes [5, 1, 9, 2] 2 :=
  ⟨(c7_get_best_indexes [5, 1, 9, 2] 2).1, (c7_get_best_indexes [5, 1, 9, 2] 2).2.1⟩

/-- Witness for C10 at concrete non-candidate inputs. -/
theorem c10_empty_candidates_raises_witness :
    compute_pred_dict [] [featJ] [resJ] 2 10 =
      Except.error (PostprocError.valueError "No examples candidates found.") :=
  c10_empty_candidates_raises [featJ] [resJ] 2 10
